import Mathlib

/-!
Interval range analysis (tipc-passes).

A shallow embedding of `src/intervalrangepass/Interval.cpp` (the interval
domain) and `src/intervalrangepass/IntervalRangeAnalysis.cpp` (the worklist
engine), together with theorems about them.

The C++ type `int` is modelled by `Int` values between `minf` and `pinf`;
the arithmetic the source performs on `int` (`+` and unary `-`) is followed
by `wrap`, the two's complement reduction to 32 bits.
-/

namespace interval

/-- The pair representation `std::pair<int,int>`. -/
abbrev Interval := Int × Int

/-- Least interval bound, `std::numeric_limits<int>::min()`. -/
def minf : Int := -2147483648

/-- Greatest interval bound, `std::numeric_limits<int>::max()`. -/
def pinf : Int := 2147483647

/-- Reduction of an integer to the 32-bit two's complement range of `int`. -/
def wrap (x : Int) : Int := (x + 2147483648) % 4294967296 - 2147483648

/-- The values an `int` can hold. -/
def IsInt (x : Int) : Prop := minf ≤ x ∧ x ≤ pinf

/-- Both bounds of the interval are values of type `int`. -/
def IntBounds (i : Interval) : Prop := IsInt i.1 ∧ IsInt i.2

instance (x : Int) : Decidable (IsInt x) := by
  unfold IsInt; exact inferInstance

instance (i : Interval) : Decidable (IntBounds i) := by
  unfold IntBounds; exact inferInstance

def make (l u : Int) : Interval := (l, u)

def lower (i : Interval) : Int := i.1

def upper (i : Interval) : Int := i.2

def full : Interval := make minf pinf

def empty : Interval := make pinf minf

def unit : Interval := make 0 1

/-- Least upper bound, `interval::lub`. -/
def lub (l r : Interval) : Interval :=
  if l = full then full
  else if l = empty then r
  else if lower l = minf ∧ upper r = pinf then full
  else if lower l = minf then make minf (max (upper l) (upper r))
  else if upper l = pinf then make (min (lower l) (lower r)) pinf
  else make (min (lower l) (lower r)) (max (upper l) (upper r))

/-- Unary negation, `interval::neg`. -/
def neg (i : Interval) : Interval :=
  if minf = lower i ∧ pinf = upper i then full
  else if pinf = lower i ∧ minf = upper i then empty
  else if minf = lower i ∧ minf = upper i then make pinf pinf
  else if pinf = lower i ∧ pinf = upper i then make minf minf
  else if pinf = upper i then make minf (wrap (-(lower i)))
  else if minf = lower i then make (wrap (-(upper i))) pinf
  else make (min (wrap (-(upper i))) (wrap (-(lower i))))
            (max (wrap (-(upper i))) (wrap (-(lower i))))

/-- Addition, `interval::add`. -/
def add (l r : Interval) : Interval :=
  let low :=
    if pinf = lower l ∨ pinf = lower r then pinf
    else if minf = lower l ∨ minf = lower r then minf
    else wrap (lower l + lower r)
  let up :=
    if minf = upper l ∨ minf = upper r then minf
    else if pinf = upper l ∨ pinf = upper r then pinf
    else wrap (upper l + upper r)
  make low up

def sub (l r : Interval) : Interval := add l (neg r)

def mul (_l _r : Interval) : Interval := full

def div (_l _r : Interval) : Interval := full

def lt (_l _r : Interval) : Interval := unit

def gt (_l _r : Interval) : Interval := unit

def eq (_l _r : Interval) : Interval := unit

def ne (_l _r : Interval) : Interval := unit

/-- Containment order: `a` is below `b` when `b` reaches at least as far down
and at least as far up as `a`. -/
def below (a b : Interval) : Prop := lower b ≤ lower a ∧ upper a ≤ upper b

instance (a b : Interval) : Decidable (below a b) := by
  unfold below; exact inferInstance

/-- The interval is `empty()` or has its lower bound below its upper bound. -/
def Ordered (i : Interval) : Prop := i = empty ∨ lower i ≤ upper i

instance (i : Interval) : Decidable (Ordered i) := by
  unfold Ordered; exact inferInstance

/-- The sums of bounds that `add` computes for `l` and `r` (those of two
bounds that are not sentinels) are `int` values. -/
def AddFits (l r : Interval) : Prop :=
  (lower l ≠ minf → lower l ≠ pinf → lower r ≠ minf → lower r ≠ pinf →
    IsInt (lower l + lower r)) ∧
  (upper l ≠ minf → upper l ≠ pinf → upper r ≠ minf → upper r ≠ pinf →
    IsInt (upper l + upper r))

instance (l r : Interval) : Decidable (AddFits l r) := by
  unfold AddFits; exact inferInstance

end interval

namespace rangeanalysis

open interval

/-- An operand of an instruction: an integer constant (`ConstantInt`, with its
sign-extended value) or any other value, named by its identity. Values below
the number of instructions of the function are its instructions, in block
order and then in-block order; the others (arguments, globals) are not
instructions. -/
inductive Operand where
  | const (c : Int)
  | val (v : Nat)
  deriving DecidableEq

/-- The opcodes of `llvm::Instruction::BinaryOps`. -/
inductive BinaryOps where
  | Add | FAdd | Sub | FSub | Mul | FMul | UDiv | SDiv | FDiv
  | URem | SRem | FRem | Shl | LShr | AShr | And | Or | Xor
  deriving DecidableEq

/-- The integer predicates that `ICmpInst::getSignedPredicate` can return. -/
inductive Predicate where
  | ICMP_EQ | ICMP_NE | ICMP_SGT | ICMP_SGE | ICMP_SLT | ICMP_SLE
  deriving DecidableEq

/-- The instruction kinds the analysis tells apart, each with its operands.
An `icmp` carries the predicate returned by `getSignedPredicate`; `other`
stands for every instruction kind that `isSupported` rejects. -/
inductive Inst where
  | phi (incoming : List Operand)
  | select (cond tv fv : Operand)
  | binop (op : BinaryOps) (l r : Operand)
  | icmp (pred : Predicate) (l r : Operand)
  | alloca (size : Operand)
  | load (ptr : Operand)
  | call (args : List Operand)
  | other (ops : List Operand)
  deriving DecidableEq

/-- The operand list of an instruction. -/
def Inst.operands : Inst → List Operand
  | .phi incoming => incoming
  | .select c t f => [c, t, f]
  | .binop _ l r => [l, r]
  | .icmp _ l r => [l, r]
  | .alloca n => [n]
  | .load p => [p]
  | .call args => args
  | .other ops => ops

/-- The node classifier `isSupported`. -/
def isSupported : Inst → Bool
  | .phi _ => true
  | .binop _ _ _ => true
  | .alloca _ => true
  | .load _ => true
  | .call _ => true
  | .select _ _ _ => true
  | .icmp _ _ _ => true
  | .other _ => false

/-- A function of the host program: its instructions (block order, then
in-block order; instruction `n` is the `n`-th of the list) and, for every
value, the users the host enumerates for it, in the host's order. -/
structure Graph where
  insts : List Inst
  users : Nat → List Nat

/-- The instruction a value is, or `other` when the value is no instruction. -/
def Graph.inst (g : Graph) (n : Nat) : Inst := g.insts.getD n (.other [])

/-- Value `n` is an instruction of the function accepted by `isSupported`. -/
def Graph.classified (g : Graph) (n : Nat) : Bool := isSupported (g.inst n)

/-- Analysis state, `DenseMap<Value*, Interval>`. -/
abbrev StateMap := Nat → Option Interval

/-- The method `DenseMap::lookup`: the stored interval, or a value-initialised
pair when the key has no entry. -/
def StateMap.lookup (state : StateMap) (v : Nat) : Interval :=
  (state v).getD (make 0 0)

/-- The assignment `state[i] = x`. -/
def StateMap.set (state : StateMap) (i : Nat) (x : Interval) : StateMap :=
  fun v => if v = i then some x else state v

/-- Interval of a value, `getInterval`: a constant yields the singleton of its
value converted to `int`, anything else is looked up in the state. -/
def getInterval (V : Operand) (state : StateMap) : Interval :=
  match V with
  | .const c => make (wrap c) (wrap c)
  | .val v => state.lookup v

/-- The value `current` that one iteration of the worklist loop computes for
an instruction; `none` is the abort through `llvm_unreachable`. -/
def evalInst (i : Inst) (state : StateMap) : Option Interval :=
  match i with
  | .phi incoming =>
      some (incoming.foldl (fun current v => lub current (getInterval v state)) empty)
  | .select _ tv fv => some (lub (getInterval tv state) (getInterval fv state))
  | .binop op l r =>
      match op with
      | .Add => some (add (getInterval l state) (getInterval r state))
      | .Sub => some (sub (getInterval l state) (getInterval r state))
      | .Mul => some (mul (getInterval l state) (getInterval r state))
      | .SDiv => some (div (getInterval l state) (getInterval r state))
      | _ => none
  | .icmp pred l r =>
      match pred with
      | .ICMP_EQ => some (eq (getInterval l state) (getInterval r state))
      | .ICMP_NE => some (ne (getInterval l state) (getInterval r state))
      | .ICMP_SLT => some (lt (getInterval l state) (getInterval r state))
      | .ICMP_SGT => some (gt (getInterval l state) (getInterval r state))
      | _ => none
  | .alloca _ => some full
  | .load _ => some full
  | .call _ => some full
  | .other _ => none

/-- Re-enqueue step: every user that is a supported instruction and is not in
the worklist is appended to its back, in enumeration order. -/
def enqueueUsers (g : Graph) (w : List Nat) (us : List Nat) : List Nat :=
  us.foldl (fun w cu => if g.classified cu ∧ cu ∉ w then w ++ [cu] else w) w

/-- How a run of the worklist loop ends. -/
inductive Outcome where
  | done (state : StateMap)
  | abort
  | outOfFuel

/-- The worklist loop of `runOnFunction`, bounded by a number of iterations. -/
def loop (g : Graph) : Nat → StateMap → List Nat → Outcome
  | _, state, [] => .done state
  | 0, _, _ :: _ => .outOfFuel
  | fuel + 1, state, i :: w =>
      let old := state.lookup i
      match evalInst (g.inst i) state with
      | none => .abort
      | some current =>
          if old ≠ current then
            loop g fuel (state.set i current) (enqueueUsers g w (g.users i))
          else
            loop g fuel state w

/-- State after the initialisation loop: `empty()` for every supported
instruction, no entry for anything else. -/
def initState (g : Graph) : StateMap :=
  fun v => if g.classified v then some empty else none

/-- Worklist after the initialisation loop: the supported instructions in
program order. -/
def initWorklist (g : Graph) : List Nat :=
  (List.range g.insts.length).filter (fun v => g.classified v)

/-- Analysis of one function, `runOnFunction`, up to the final state. -/
def runOnFunction (g : Graph) (fuel : Nat) : Outcome :=
  loop g fuel (initState g) (initWorklist g)

/-- The entry of a value in the final state, when the run ended normally. -/
def Outcome.entry : Outcome → Nat → Option Interval
  | .done state, v => state v
  | _, _ => none

/-- The run ended with an empty worklist. -/
def Outcome.finished : Outcome → Bool
  | .done _ => true
  | _ => false

/-- The host lists, among the users of a value, every supported instruction
that has the value as an operand. -/
def UsersComplete (g : Graph) : Prop :=
  ∀ m n : Nat, g.classified m = true → Operand.val n ∈ (g.inst m).operands → m ∈ g.users n

/-- The final state of a run that ended normally (no entries otherwise). -/
def Outcome.state : Outcome → StateMap
  | .done state => state
  | _ => fun _ => none

/-- Executable form of `UsersComplete`. -/
def usersCompleteCheck (g : Graph) : Bool :=
  (List.range g.insts.length).all fun m =>
    !g.classified m ||
      (g.inst m).operands.all fun o =>
        match o with
        | .val n => decide (m ∈ g.users n)
        | .const _ => true

/-- A loop counter stepping by `2^30`: `x = phi [0, entry], [y, body]` and
`y = add x, 1073741824`, each the only user of the other. -/
def overflowLoop : Graph :=
  { insts := [.phi [.const 0, .val 1], .binop .Add (.val 0) (.const 1073741824)]
    users := fun n => match n with
      | 0 => [1]
      | 1 => [0]
      | _ => [] }

/-- A merge of the constants 2 and 7, an addition of the constants 3 and 4, a
load from the value 9 (not an instruction), and a merge of the first two. -/
def mergeExample : Graph :=
  { insts := [.phi [.const 2, .const 7], .binop .Add (.const 3) (.const 4),
              .load (.val 9), .phi [.val 0, .val 1]]
    users := fun n => match n with
      | 0 => [3]
      | 1 => [3]
      | 9 => [2]
      | _ => [] }

/-- Every supported instruction has an entry in the state. -/
def Defined (g : Graph) (s : StateMap) : Prop :=
  ∀ n, g.classified n = true → ∃ x, s n = some x

/-- Every supported instruction outside the worklist evaluates to its entry. -/
def Stable (g : Graph) (s : StateMap) (w : List Nat) : Prop :=
  ∀ n, g.classified n = true → n ∉ w → evalInst (g.inst n) s = some (s.lookup n)

/-- The instruction adds or subtracts interval bounds (`add` and `sub` are the
only domain operations that do arithmetic on bounds). -/
def Inst.addsBounds : Inst → Bool
  | .binop .Add _ _ => true
  | .binop .Sub _ _ => true
  | _ => false

/-- No instruction of the function is a binary `Add` or `Sub`. -/
def NoBoundArithmetic (g : Graph) : Prop := ∀ i ∈ g.insts, i.addsBounds = false

instance (g : Graph) : Decidable (NoBoundArithmetic g) := by
  unfold NoBoundArithmetic; exact inferInstance

/-- Every interval stored in the state has `int` bounds. -/
def StateInt (s : StateMap) : Prop := ∀ n x, s n = some x → IntBounds x

/-- Values without a supported instruction have no entry. -/
def NoStray (g : Graph) (s : StateMap) : Prop := ∀ n, g.classified n = false → s n = none

/-- Pointwise containment order on the intervals two states give to values. -/
def StateBelow (s t : StateMap) : Prop := ∀ n, below (s.lookup n) (t.lookup n)

/-- Every supported instruction evaluates to an interval above its entry. -/
def Ascending (g : Graph) (s : StateMap) : Prop :=
  ∀ n, g.classified n = true → ∀ x, evalInst (g.inst n) s = some x → below (s.lookup n) x

/-- The configurations (state and worklist) a run of `runOnFunction` goes
through: the one after initialisation, and the one after an iteration of the
worklist loop from a configuration of the run, whether the iteration leaves
the state as it is or stores a new value. -/
inductive Reach (g : Graph) : StateMap → List Nat → Prop where
  | init : Reach g (initState g) (initWorklist g)
  | same {s : StateMap} {i : Nat} {w : List Nat} {current : Interval} :
      Reach g s (i :: w) → evalInst (g.inst i) s = some current →
        s.lookup i = current → Reach g s w
  | change {s : StateMap} {i : Nat} {w : List Nat} {current : Interval} :
      Reach g s (i :: w) → evalInst (g.inst i) s = some current →
        s.lookup i ≠ current →
          Reach g (s.set i current) (enqueueUsers g w (g.users i))

/-- Every value an iteration of the run computes for an instruction is above
the entry the instruction has at that moment. -/
def Upward (g : Graph) : Prop :=
  ∀ (s : StateMap) (i : Nat) (w : List Nat) (current : Interval),
    Reach g s (i :: w) → evalInst (g.inst i) s = some current →
      below (s.lookup i) current

/-- How far an interval with `int` bounds is from `full()`. -/
def height (x : Interval) : Nat := (x.1 - minf + (pinf - x.2)).toNat

/-- Total height of the intervals of all instructions. -/
def potential (g : Graph) (s : StateMap) : Nat :=
  ((List.range g.insts.length).map fun n => height (s.lookup n)).sum

/-- A loop without addition: `x = phi [0, entry], [y, body]`,
`y = select c, x, 5` and `z = mul y, 2`. -/
def mergeLoop : Graph :=
  { insts := [.phi [.const 0, .val 1], .select (.val 9) (.val 0) (.const 5),
              .binop .Mul (.val 1) (.const 2)]
    users := fun n => match n with
      | 0 => [1]
      | 1 => [0, 2]
      | 9 => [1]
      | _ => [] }

/-- Five instructions: `s = phi [0], [t]`, `a = add s, 0`, `y = add s, a`,
`p = phi [p], [y]` and `t = select c, 2^30, 2^30`; the users of `s` are
enumerated as `a, y`. -/
def orderExample : Graph :=
  { insts := [.phi [.const 0, .val 4], .binop .Add (.val 0) (.const 0),
              .binop .Add (.val 0) (.val 1), .phi [.val 3, .val 2],
              .select (.val 9) (.const 1073741824) (.const 1073741824)]
    users := fun n => match n with
      | 0 => [1, 2]
      | 1 => [2]
      | 2 => [3]
      | 3 => [3]
      | 4 => [0]
      | 9 => [4]
      | _ => [] }

/-- The instruction is a binary operator or an integer comparison that the
dispatch of the worklist loop does not enumerate. -/
def Inst.dispatchFails : Inst → Bool
  | .binop op _ _ => !(op = .Add || op = .Sub || op = .Mul || op = .SDiv)
  | .icmp pred _ _ =>
      !(pred = .ICMP_EQ || pred = .ICMP_NE || pred = .ICMP_SLT || pred = .ICMP_SGT)
  | _ => false

/-- The graph `orderExample` with the users of `s` enumerated as `y, a`. -/
def orderExampleSwapped : Graph :=
  { insts := orderExample.insts
    users := fun n => if n = 0 then [2, 1] else orderExample.users n }

/-- The sums of bounds that evaluating the instruction in the state computes
are `int` values: for an `Add` those of `add` on the two operand intervals, for
a `Sub` those of the `add` inside `sub`; other instructions compute no sum. -/
def Inst.sumsFit (ins : Inst) (s : StateMap) : Prop :=
  match ins with
  | .binop .Add l r => AddFits (getInterval l s) (getInterval r s)
  | .binop .Sub l r => AddFits (getInterval l s) (neg (getInterval r s))
  | _ => True

instance (ins : Inst) (s : StateMap) : Decidable (ins.sumsFit s) := by
  unfold Inst.sumsFit; split <;> exact inferInstance

/-- No iteration of the run computes a sum of bounds outside `int`. -/
def NoOverflow (g : Graph) : Prop :=
  ∀ (s : StateMap) (i : Nat) (w : List Nat), Reach g s (i :: w) → (g.inst i).sumsFit s

/-- Every interval stored in the state is `empty()` or has its lower bound at
most its upper bound. -/
def OrderedState (s : StateMap) : Prop := ∀ n x, s n = some x → Ordered x

/-- Every entry of a supported instruction is `empty()` or the value the
instruction had, with sums that fit, in a state below the present one. -/
def Traced (g : Graph) (s : StateMap) : Prop :=
  ∀ n, g.classified n = true →
    s.lookup n = empty ∨
      ∃ t : StateMap, StateInt t ∧ OrderedState t ∧ StateBelow t s ∧
        evalInst (g.inst n) t = some (s.lookup n) ∧ (g.inst n).sumsFit t

/-- Every supported instruction outside the worklist evaluates to its entry,
with sums that fit. -/
def StableFits (g : Graph) (s : StateMap) (w : List Nat) : Prop :=
  ∀ n, g.classified n = true → n ∉ w →
    evalInst (g.inst n) s = some (s.lookup n) ∧ (g.inst n).sumsFit s

/-- The worklist loop run as a check: it ends within the given number of
iterations, without abort, and every sum of bounds it computes fits `int`. -/
def loopFits (g : Graph) : Nat → StateMap → List Nat → Bool
  | _, _, [] => true
  | 0, _, _ :: _ => false
  | fuel + 1, state, i :: w =>
      match evalInst (g.inst i) state with
      | none => false
      | some current =>
          decide ((g.inst i).sumsFit state) &&
            (if state.lookup i ≠ current then
              loopFits g fuel (state.set i current) (enqueueUsers g w (g.users i))
            else
              loopFits g fuel state w)

/-- The instructions of `orderExample` with the constant 5 in place of `2^30`:
`s = phi [0], [t]`, `a = add s, 0`, `y = add s, a`, `p = phi [p], [y]` and
`t = select c, 5, 5`; the users of `s` are enumerated as `a, y`. -/
def orderSmall : Graph :=
  { insts := [.phi [.const 0, .val 4], .binop .Add (.val 0) (.const 0),
              .binop .Add (.val 0) (.val 1), .phi [.val 3, .val 2],
              .select (.val 9) (.const 5) (.const 5)]
    users := orderExample.users }

/-- The state of the run on `orderSmall` after seven iterations: `s` has been
raised from `[0,0]` to `[0,5]`, and `a`, `y` and `p` still hold `[0,0]`. -/
def orderSmallState : StateMap :=
  ((((((initState orderSmall).set 0 (0, 0)).set 1 (0, 0)).set 2 (0, 0)).set 3 (0, 0)).set 4
    (5, 5)).set 0 (0, 5)

/-- The graph `orderSmall` with the users of `s` enumerated as `y, a`. -/
def orderSmallSwapped : Graph :=
  { insts := orderSmall.insts
    users := orderExampleSwapped.users }

end rangeanalysis

namespace interval

/-! ## The interval domain -/

theorem wrap_of_isInt {x : Int} (h : IsInt x) : wrap x = x := by
  unfold IsInt minf pinf at h
  unfold wrap
  omega

theorem isInt_wrap (x : Int) : IsInt (wrap x) := by
  unfold IsInt minf pinf wrap
  omega

/-- On intervals with `int` bounds the case analysis of `lub` computes the
componentwise minimum and maximum. -/
theorem lub_componentwise {l r : Interval} (hl : IntBounds l) (hr : IntBounds r) :
    lub l r = (min l.1 r.1, max l.2 r.2) := by
  obtain ⟨a, b⟩ := l
  obtain ⟨c, d⟩ := r
  simp only [IntBounds, IsInt, minf, pinf] at hl hr
  simp only [lub, full, empty, make, lower, upper, minf, pinf, Prod.mk.injEq]
  split_ifs <;> refine Prod.ext ?_ ?_ <;> dsimp only <;> omega

/-- C4: `lub` is commutative on all intervals whose bounds are `int` values. -/
theorem lub_commutative (a b : Interval) (ha : IntBounds a) (hb : IntBounds b) :
    lub a b = lub b a := by
  rw [lub_componentwise ha hb, lub_componentwise hb ha, min_comm, max_comm]

theorem lub_commutative_witness :
    IntBounds (make 1 4) ∧ IntBounds (make minf 2) ∧
      lub (make 1 4) (make minf 2) = lub (make minf 2) (make 1 4) :=
  ⟨by decide, by decide, lub_commutative (make 1 4) (make minf 2) (by decide) (by decide)⟩

/-- C5: `empty()` is the identity of the join, `lub(empty(), x) == x`. -/
theorem lub_empty_left (x : Interval) : lub empty x = x := by
  have h : empty ≠ full := by decide
  simp [lub, h]

/-- C6: `lub` is the least upper bound in the containment order: it is above
both arguments, and below every interval that is above both. -/
theorem lub_least_upper_bound (l r : Interval) (hl : IntBounds l) (hr : IntBounds r) :
    below l (lub l r) ∧ below r (lub l r) ∧
      ∀ u : Interval, below l u → below r u → below (lub l r) u := by
  rw [lub_componentwise hl hr]
  simp only [below, lower, upper]
  refine ⟨⟨min_le_left _ _, le_max_left _ _⟩, ⟨min_le_right _ _, le_max_right _ _⟩, ?_⟩
  intro u h1 h2
  exact ⟨le_min h1.1 h2.1, max_le h1.2 h2.2⟩

theorem lub_least_upper_bound_witness :
    IntBounds (make 1 4) ∧ IntBounds (make 3 pinf) ∧
      below (make 1 4) (lub (make 1 4) (make 3 pinf)) ∧
      below (make 3 pinf) (lub (make 1 4) (make 3 pinf)) ∧
      ∀ u : Interval, below (make 1 4) u → below (make 3 pinf) u →
        below (lub (make 1 4) (make 3 pinf)) u :=
  ⟨by decide, by decide,
    lub_least_upper_bound (make 1 4) (make 3 pinf) (by decide) (by decide)⟩

/-- Negation of a finite ordered interval without sentinel bounds. -/
theorem neg_make_finite (a b : Int) (hab : a ≤ b) (ha : IsInt a) (hb : IsInt b)
    (ha1 : a ≠ minf) (ha2 : a ≠ pinf) (hb2 : b ≠ pinf) :
    neg (make a b) = make (-b) (-a) := by
  have hwa : wrap (-a) = -a := by
    apply wrap_of_isInt
    unfold IsInt minf pinf at *
    omega
  have hwb : wrap (-b) = -b := by
    apply wrap_of_isInt
    unfold IsInt minf pinf at *
    omega
  simp only [neg, make, lower, upper, hwa, hwb]
  have e1 : minf ≠ a := fun h => ha1 h.symm
  have e2 : pinf ≠ b := fun h => hb2 h.symm
  rw [if_neg (fun h => e1 h.1), if_neg (fun h => ha2 h.1.symm), if_neg (fun h => e1 h.1),
    if_neg (fun h => ha2 h.1.symm), if_neg e2, if_neg e1]
  rw [min_eq_left (by omega), max_eq_right (by omega)]

/-- C7: negation of a finite ordered interval negates and swaps the bounds,
and the result contains the negation of every member of the argument. -/
theorem neg_finite (a b : Int) (hab : a ≤ b) (ha : IsInt a) (hb : IsInt b)
    (ha1 : a ≠ minf) (ha2 : a ≠ pinf) (_hb1 : b ≠ minf) (hb2 : b ≠ pinf) :
    neg (make a b) = make (-b) (-a) ∧
      ∀ x : Int, a ≤ x → x ≤ b →
        lower (neg (make a b)) ≤ -x ∧ -x ≤ upper (neg (make a b)) := by
  have hneg := neg_make_finite a b hab ha hb ha1 ha2 hb2
  refine ⟨hneg, ?_⟩
  intro x h1 h2
  rw [hneg]
  simp only [make, lower, upper]
  omega

theorem neg_finite_witness :
    neg (make 2 5) = make (-5) (-2) ∧
      ∀ x : Int, 2 ≤ x → x ≤ 5 →
        lower (neg (make 2 5)) ≤ -x ∧ -x ≤ upper (neg (make 2 5)) :=
  neg_finite 2 5 (by decide) (by decide) (by decide) (by decide) (by decide)
    (by decide) (by decide)

/-- C8: bound rule of `add` when no lower bound is `pinf` and no upper bound
is `minf`: a `minf` lower bound or a `pinf` upper bound is kept, otherwise the
bounds are added, provided the sum is an `int`. -/
theorem add_bound_rule (l r : Interval)
    (hl : lower l ≠ pinf) (hr : lower r ≠ pinf)
    (hl2 : upper l ≠ minf) (hr2 : upper r ≠ minf) :
    ((lower l = minf ∨ lower r = minf) → lower (add l r) = minf) ∧
    (lower l ≠ minf → lower r ≠ minf → IsInt (lower l + lower r) →
      lower (add l r) = lower l + lower r) ∧
    ((upper l = pinf ∨ upper r = pinf) → upper (add l r) = pinf) ∧
    (upper l ≠ pinf → upper r ≠ pinf → IsInt (upper l + upper r) →
      upper (add l r) = upper l + upper r) := by
  have e1 : ¬ (pinf = lower l ∨ pinf = lower r) := by
    rintro (h | h)
    · exact hl h.symm
    · exact hr h.symm
  have e2 : ¬ (minf = upper l ∨ minf = upper r) := by
    rintro (h | h)
    · exact hl2 h.symm
    · exact hr2 h.symm
  refine ⟨?_, ?_, ?_, ?_⟩
  · intro h
    have e3 : minf = lower l ∨ minf = lower r := h.imp Eq.symm Eq.symm
    simp only [add, make, lower] at e1 e3 ⊢
    simp only [e1, e3, if_true, if_false]
  · intro h1 h2 h3
    have e3 : ¬ (minf = lower l ∨ minf = lower r) := by
      rintro (h | h)
      · exact h1 h.symm
      · exact h2 h.symm
    simp only [add, make, lower] at e1 e3 h3 ⊢
    simp only [e1, e3, if_false]
    exact wrap_of_isInt h3
  · intro h
    have e3 : pinf = upper l ∨ pinf = upper r := h.imp Eq.symm Eq.symm
    simp only [add, make, upper] at e2 e3 ⊢
    simp only [e2, e3, if_true, if_false]
  · intro h1 h2 h3
    have e3 : ¬ (pinf = upper l ∨ pinf = upper r) := by
      rintro (h | h)
      · exact h1 h.symm
      · exact h2 h.symm
    simp only [add, make, upper] at e2 e3 h3 ⊢
    simp only [e2, e3, if_false]
    exact wrap_of_isInt h3

theorem add_bound_rule_witness :
    add (make 1 3) (make 2 2) = make 3 5 ∧ add (make minf 3) (make 1 5) = make minf 8 ∧
    lower (add (make minf 3) (make 1 5)) = minf ∧
    upper (add (make minf 3) (make 1 5)) = upper (make minf 3) + upper (make 1 5) :=
  ⟨by decide, by decide,
    (add_bound_rule (make minf 3) (make 1 5) (by decide) (by decide) (by decide)
      (by decide)).1 (Or.inl rfl),
    (add_bound_rule (make minf 3) (make 1 5) (by decide) (by decide) (by decide)
      (by decide)).2.2.2 (by decide) (by decide) (by decide)⟩

/-- C9: `empty()` dominates addition on either side. -/
theorem add_empty (x : Interval) : add empty x = empty ∧ add x empty = empty := by
  simp [add, empty, make, lower, upper]

/-- C10 (as stated) fails: `-5 <= 0`, no bound is a sentinel and both
differences are `int` values, yet `sub([-5,0], [-2147483647,-2147483647])` is
`[pinf,pinf]`, which is neither `make(a-d, b-c)` nor contains `-5 - d`. -/
theorem sub_finite_counterexample :
    ((-5 : Int) ≤ 0 ∧ (-2147483647 : Int) ≤ -2147483647 ∧
      (-5 : Int) ≠ minf ∧ (-5 : Int) ≠ pinf ∧ (0 : Int) ≠ minf ∧ (0 : Int) ≠ pinf ∧
      (-2147483647 : Int) ≠ minf ∧ (-2147483647 : Int) ≠ pinf ∧
      IsInt (-5 - -2147483647) ∧ IsInt (0 - -2147483647)) ∧
    sub (make (-5) 0) (make (-2147483647) (-2147483647)) = make pinf pinf ∧
    sub (make (-5) 0) (make (-2147483647) (-2147483647))
      ≠ make (-5 - -2147483647) (0 - -2147483647) ∧
    ¬ (lower (sub (make (-5) 0) (make (-2147483647) (-2147483647)))
        ≤ -5 - -2147483647) := by
  decide

/-- C10 (amended): for finite ordered intervals with no sentinel bound and
with `c` different from `minf + 1` (so that no negated bound is the sentinel
`pinf`), `sub` subtracts the bounds crosswise when both differences are `int`
values, and the result contains every difference of members. -/
theorem sub_finite (a b c d : Int) (hab : a ≤ b) (hcd : c ≤ d)
    (ha : IsInt a) (hb : IsInt b) (hc : IsInt c) (hd : IsInt d)
    (ha1 : a ≠ minf) (ha2 : a ≠ pinf) (hb1 : b ≠ minf) (hb2 : b ≠ pinf)
    (hc1 : c ≠ minf) (hc2 : c ≠ pinf) (hd1 : d ≠ minf) (hd2 : d ≠ pinf)
    (hc3 : c ≠ minf + 1) (hlo : IsInt (a - d)) (hup : IsInt (b - c)) :
    sub (make a b) (make c d) = make (a - d) (b - c) ∧
      ∀ x y : Int, a ≤ x → x ≤ b → c ≤ y → y ≤ d →
        lower (sub (make a b) (make c d)) ≤ x - y ∧
          x - y ≤ upper (sub (make a b) (make c d)) := by
  have hneg := neg_make_finite c d hcd hc hd hc1 hc2 hd2
  have hsub : sub (make a b) (make c d) = make (a - d) (b - c) := by
    unfold sub
    rw [hneg]
    have hw1 : wrap (a + -d) = a - d := by
      rw [← sub_eq_add_neg]; exact wrap_of_isInt hlo
    have hw2 : wrap (b + -c) = b - c := by
      rw [← sub_eq_add_neg]; exact wrap_of_isInt hup
    simp only [IsInt, minf, pinf] at *
    have e1 : ¬ ((2147483647 : Int) = a ∨ (2147483647 : Int) = -d) := by omega
    have e2 : ¬ ((-2147483648 : Int) = a ∨ (-2147483648 : Int) = -d) := by omega
    have e3 : ¬ ((-2147483648 : Int) = b ∨ (-2147483648 : Int) = -c) := by omega
    have e4 : ¬ ((2147483647 : Int) = b ∨ (2147483647 : Int) = -c) := by omega
    simp only [add, make, lower, upper, minf, pinf, e1, e2, e3, e4, if_false, hw1, hw2]
  refine ⟨hsub, ?_⟩
  intro x y h1 h2 h3 h4
  rw [hsub]
  simp only [make, lower, upper]
  omega

theorem sub_finite_witness :
    sub (make 1 3) (make 2 5) = make (1 - 5) (3 - 2) ∧
      ∀ x y : Int, 1 ≤ x → x ≤ 3 → 2 ≤ y → y ≤ 5 →
        lower (sub (make 1 3) (make 2 5)) ≤ x - y ∧
          x - y ≤ upper (sub (make 1 3) (make 2 5)) :=
  sub_finite 1 3 2 5 (by decide) (by decide) (by decide) (by decide) (by decide)
    (by decide) (by decide) (by decide) (by decide) (by decide) (by decide) (by decide)
    (by decide) (by decide) (by decide) (by decide) (by decide)

end interval

namespace rangeanalysis

open interval

/-! ## The worklist loop, one iteration at a time -/

theorem loop_nil (g : Graph) (fuel : Nat) (state : StateMap) :
    loop g fuel state [] = .done state := by
  cases fuel <;> rfl

theorem loop_step_abort {g : Graph} {state : StateMap} {i : Nat}
    (h : evalInst (g.inst i) state = none) (fuel : Nat) (w : List Nat) :
    loop g (fuel + 1) state (i :: w) = .abort := by
  simp only [loop, h]

theorem loop_step_change {g : Graph} {state : StateMap} {i : Nat} {current : Interval}
    (h : evalInst (g.inst i) state = some current) (hne : state.lookup i ≠ current)
    (fuel : Nat) (w : List Nat) :
    loop g (fuel + 1) state (i :: w)
      = loop g fuel (state.set i current) (enqueueUsers g w (g.users i)) := by
  simp only [loop, h, ne_eq, hne, not_false_eq_true, if_true]

theorem loop_step_same {g : Graph} {state : StateMap} {i : Nat} {current : Interval}
    (h : evalInst (g.inst i) state = some current) (heq : state.lookup i = current)
    (fuel : Nat) (w : List Nat) :
    loop g (fuel + 1) state (i :: w) = loop g fuel state w := by
  simp only [loop, h, ne_eq, heq, not_true_eq_false, if_false]

/-! ## Re-enqueueing -/

theorem mem_enqueueUsers_of_mem (g : Graph) (us : List Nat) :
    ∀ (w : List Nat) (x : Nat), x ∈ w → x ∈ enqueueUsers g w us := by
  induction us with
  | nil => intro w x hx; exact hx
  | cons u us ih =>
    intro w x hx
    simp only [enqueueUsers, List.foldl_cons]
    apply ih
    split_ifs
    · exact List.mem_append_left _ hx
    · exact hx

theorem mem_enqueueUsers_of_user (g : Graph) (us : List Nat) :
    ∀ (w : List Nat) (u : Nat), u ∈ us → g.classified u = true →
      u ∈ enqueueUsers g w us := by
  induction us with
  | nil => intro w u hu; exact absurd hu (List.not_mem_nil u)
  | cons v us ih =>
    intro w u hu hc
    simp only [enqueueUsers, List.foldl_cons]
    rcases List.mem_cons.1 hu with rfl | hu
    · apply mem_enqueueUsers_of_mem
      by_cases hw : u ∈ w
      · simp only [hw, not_true_eq_false, and_false, if_false]
      · simp only [hc, hw, not_false_eq_true, and_self, if_true]
        exact List.mem_append_right _ (List.mem_singleton_self u)
    · exact ih _ u hu hc

/-! ## Dependence of an evaluation on the state -/

theorem getInterval_congr {s t : StateMap} (o : Operand)
    (h : ∀ v, o = .val v → s v = t v) : getInterval o s = getInterval o t := by
  cases o with
  | const c => rfl
  | val v => simp only [getInterval, StateMap.lookup, h v rfl]

/-- An evaluation reads the state only at the operands of the instruction. -/
theorem evalInst_congr {s t : StateMap} (i : Inst)
    (h : ∀ v, Operand.val v ∈ i.operands → s v = t v) : evalInst i s = evalInst i t := by
  have hop : ∀ o ∈ i.operands, getInterval o s = getInterval o t := by
    intro o ho
    apply getInterval_congr
    intro v hv
    exact h v (hv ▸ ho)
  cases i with
  | phi incoming =>
    simp only [evalInst, Option.some.injEq]
    apply List.foldl_ext
    intro a b hb
    rw [hop b hb]
  | select c tv fv =>
    simp only [evalInst, hop tv (by simp [Inst.operands]), hop fv (by simp [Inst.operands])]
  | binop op l r =>
    simp only [evalInst, hop l (by simp [Inst.operands]), hop r (by simp [Inst.operands])]
  | icmp pred l r =>
    simp only [evalInst, hop l (by simp [Inst.operands]), hop r (by simp [Inst.operands])]
  | alloca n => rfl
  | load q => rfl
  | call args => rfl
  | other ops => rfl

theorem evalInst_set_of_not_operand {s : StateMap} (ins : Inst) (i : Nat) (x : Interval)
    (h : Operand.val i ∉ ins.operands) : evalInst ins (s.set i x) = evalInst ins s := by
  apply evalInst_congr
  intro v hv
  have : v ≠ i := fun e => h (e ▸ hv)
  simp only [StateMap.set, this, if_false]

theorem lookup_set_same (s : StateMap) (i : Nat) (x : Interval) :
    (s.set i x).lookup i = x := by
  simp [StateMap.lookup, StateMap.set]

theorem lookup_set_other (s : StateMap) {i n : Nat} (x : Interval) (h : n ≠ i) :
    (s.set i x).lookup n = s.lookup n := by
  simp [StateMap.lookup, StateMap.set, h]

/-! ## Fixpoint stability -/

theorem classified_lt_length {g : Graph} {n : Nat} (h : g.classified n = true) :
    n < g.insts.length := by
  by_contra hn
  have : g.inst n = .other [] := by
    simp only [Graph.inst, List.getD_eq_getElem?_getD]
    rw [List.getElem?_eq_none (by omega)]
    rfl
  simp [Graph.classified, this, isSupported] at h

theorem mem_initWorklist {g : Graph} {n : Nat} (h : g.classified n = true) :
    n ∈ initWorklist g := by
  simp only [initWorklist, List.mem_filter, List.mem_range]
  exact ⟨classified_lt_length h, h⟩

theorem defined_initState (g : Graph) : Defined g (initState g) := by
  intro n hn
  exact ⟨empty, by simp [initState, hn]⟩

theorem defined_set {g : Graph} {s : StateMap} (h : Defined g s) (i : Nat) (x : Interval) :
    Defined g (s.set i x) := by
  intro n hn
  by_cases e : n = i
  · exact ⟨x, by simp [StateMap.set, e]⟩
  · obtain ⟨y, hy⟩ := h n hn
    exact ⟨y, by simp [StateMap.set, e, hy]⟩

theorem loop_stable {g : Graph} (hu : UsersComplete g) :
    ∀ (fuel : Nat) (s : StateMap) (w : List Nat) (s' : StateMap),
      Defined g s → Stable g s w → loop g fuel s w = .done s' →
        Defined g s' ∧ Stable g s' [] := by
  intro fuel
  induction fuel with
  | zero =>
    intro s w s' hd hs h
    cases w with
    | nil =>
      simp only [loop, Outcome.done.injEq] at h
      subst h
      exact ⟨hd, hs⟩
    | cons i w => simp [loop] at h
  | succ fuel ih =>
    intro s w s' hd hs h
    cases w with
    | nil =>
      simp only [loop, Outcome.done.injEq] at h
      subst h
      exact ⟨hd, hs⟩
    | cons i w =>
      cases hev : evalInst (g.inst i) s with
      | none => rw [loop_step_abort hev] at h; cases h
      | some current =>
        by_cases hne : s.lookup i = current
        · rw [loop_step_same hev hne] at h
          refine ih s w s' hd ?_ h
          intro n hn hw
          by_cases e : n = i
          · subst e; rw [hev, hne]
          · exact hs n hn (by simp [e, hw])
        · rw [loop_step_change hev hne] at h
          refine ih _ _ s' (defined_set hd i current) ?_ h
          intro n hn hw
          have hnu : n ∉ g.users i := fun hm => hw (mem_enqueueUsers_of_user g _ _ n hm hn)
          have hnw : n ∉ w := fun hm => hw (mem_enqueueUsers_of_mem g _ _ n hm)
          have hop : Operand.val i ∉ (g.inst n).operands := fun hm => hnu (hu n i hn hm)
          rw [evalInst_set_of_not_operand _ i current hop]
          by_cases e : n = i
          · subst e; rw [hev, lookup_set_same]
          · rw [lookup_set_other s current e]
            exact hs n hn (by simp [e, hnw])

/-- C1: when every supported instruction that has `n` as an operand is among
the users of `n` and the worklist loop ends without abort, every supported
instruction has an entry in the final state and evaluating it once more in the
final state yields exactly that entry. -/
theorem fixpoint_stability (g : Graph) (hu : UsersComplete g) (fuel : Nat)
    (final : StateMap) (hrun : runOnFunction g fuel = .done final) :
    ∀ n, g.classified n = true →
      ∃ x, final n = some x ∧ evalInst (g.inst n) final = some x := by
  have h := loop_stable hu fuel (initState g) (initWorklist g) final (defined_initState g)
    (fun n hn hw => absurd (mem_initWorklist hn) hw) hrun
  intro n hn
  obtain ⟨x, hx⟩ := h.1 n hn
  refine ⟨x, hx, ?_⟩
  rw [h.2 n hn (List.not_mem_nil n)]
  simp [StateMap.lookup, hx]

theorem usersComplete_of_check {g : Graph} (h : usersCompleteCheck g = true) :
    UsersComplete g := by
  intro m n hm hop
  simp only [usersCompleteCheck, List.all_eq_true, List.mem_range, Bool.or_eq_true,
    Bool.not_eq_true'] at h
  rcases h m (classified_lt_length hm) with h1 | h1
  · rw [hm] at h1; cases h1
  · simpa using h1 (.val n) hop

theorem done_of_finished {o : Outcome} (h : o.finished = true) : o = .done o.state := by
  cases o with
  | done s => rfl
  | abort => cases h
  | outOfFuel => cases h

theorem fixpoint_stability_witness :
    UsersComplete mergeExample ∧
      runOnFunction mergeExample 6 = .done (runOnFunction mergeExample 6).state ∧
      ∀ n, mergeExample.classified n = true →
        ∃ x, (runOnFunction mergeExample 6).state n = some x ∧
          evalInst (mergeExample.inst n) (runOnFunction mergeExample 6).state = some x :=
  ⟨usersComplete_of_check (by decide), done_of_finished (by decide),
    fixpoint_stability mergeExample (usersComplete_of_check (by decide)) 6 _
      (done_of_finished (by decide))⟩

/-! ## A run that never ends -/

theorem overflowLoop_eval0 {s : StateMap} {b : Interval} (h : s 1 = some b) :
    evalInst (overflowLoop.inst 0) s = some (lub (make 0 0) b) := by
  have e : overflowLoop.inst 0 = .phi [.const 0, .val 1] := rfl
  have w0 : wrap 0 = 0 := by decide
  have l0 : lub empty (make 0 0) = make 0 0 := by decide
  simp only [e, evalInst, List.foldl_cons, List.foldl_nil, getInterval, StateMap.lookup, h,
    Option.getD_some, w0, l0]

theorem overflowLoop_eval1 {s : StateMap} {a : Interval} (h : s 0 = some a) :
    evalInst (overflowLoop.inst 1) s = some (add a (make 1073741824 1073741824)) := by
  have e : overflowLoop.inst 1 = .binop .Add (.val 0) (.const 1073741824) := rfl
  have w0 : wrap 1073741824 = 1073741824 := by decide
  simp only [e, evalInst, getInterval, StateMap.lookup, h, Option.getD_some, w0]

/-- One iteration on `overflowLoop` at the merge, when its value changes. -/
theorem overflowLoop_step0 {s : StateMap} {a b c : Interval} (h0 : s 0 = some a)
    (h1 : s 1 = some b) (hc : lub (make 0 0) b = c) (hne : a ≠ c) (fuel : Nat) :
    ∃ t : StateMap, t 0 = some c ∧ t 1 = some b ∧
      loop overflowLoop (fuel + 1) s [0] = loop overflowLoop fuel t [1] := by
  refine ⟨s.set 0 c, by simp [StateMap.set], by simp [StateMap.set, h1], ?_⟩
  have hev := overflowLoop_eval0 h1
  rw [hc] at hev
  rw [loop_step_change hev (by simpa [StateMap.lookup, h0] using hne)]
  rfl

/-- One iteration on `overflowLoop` at the addition, when its value changes. -/
theorem overflowLoop_step1 {s : StateMap} {a b c : Interval} (h0 : s 0 = some a)
    (h1 : s 1 = some b) (hc : add a (make 1073741824 1073741824) = c) (hne : b ≠ c)
    (fuel : Nat) :
    ∃ t : StateMap, t 0 = some a ∧ t 1 = some c ∧
      loop overflowLoop (fuel + 1) s [1] = loop overflowLoop fuel t [0] := by
  refine ⟨s.set 1 c, by simp [StateMap.set, h0], by simp [StateMap.set], ?_⟩
  have hev := overflowLoop_eval1 h0
  rw [hc] at hev
  rw [loop_step_change hev (by simpa [StateMap.lookup, h1] using hne)]
  rfl

/-- The four configurations `overflowLoop` cycles through: from each of them
the loop uses up any amount of fuel. -/
theorem overflowLoop_cycle (fuel : Nat) :
    ∀ s : StateMap,
      (s 0 = some (0, 0) → s 1 = some (1073741824, 1073741824) →
        loop overflowLoop fuel s [0] = .outOfFuel) ∧
      (s 0 = some (0, 1073741824) → s 1 = some (1073741824, 1073741824) →
        loop overflowLoop fuel s [1] = .outOfFuel) ∧
      (s 0 = some (0, 1073741824) → s 1 = some (1073741824, minf) →
        loop overflowLoop fuel s [0] = .outOfFuel) ∧
      (s 0 = some (0, 0) → s 1 = some (1073741824, minf) →
        loop overflowLoop fuel s [1] = .outOfFuel) := by
  induction fuel with
  | zero => intro s; exact ⟨fun _ _ => rfl, fun _ _ => rfl, fun _ _ => rfl, fun _ _ => rfl⟩
  | succ fuel ih =>
    intro s
    refine ⟨?_, ?_, ?_, ?_⟩
    · intro h0 h1
      obtain ⟨t, t0, t1, e⟩ := overflowLoop_step0 (c := (0, 1073741824)) h0 h1
        (by decide) (by decide) fuel
      rw [e]; exact (ih t).2.1 t0 t1
    · intro h0 h1
      obtain ⟨t, t0, t1, e⟩ := overflowLoop_step1 (c := (1073741824, minf)) h0 h1
        (by decide) (by decide) fuel
      rw [e]; exact (ih t).2.2.1 t0 t1
    · intro h0 h1
      obtain ⟨t, t0, t1, e⟩ := overflowLoop_step0 (c := (0, 0)) h0 h1
        (by decide) (by decide) fuel
      rw [e]; exact (ih t).2.2.2 t0 t1
    · intro h0 h1
      obtain ⟨t, t0, t1, e⟩ := overflowLoop_step1 (c := (1073741824, 1073741824)) h0 h1
        (by decide) (by decide) fuel
      rw [e]; exact (ih t).1 t0 t1

theorem overflowLoop_outOfFuel (fuel : Nat) :
    runOnFunction overflowLoop fuel = .outOfFuel := by
  have hw : initWorklist overflowLoop = [0, 1] := by decide
  have hev0 : evalInst (overflowLoop.inst 0) (initState overflowLoop) = some (0, 0) := by
    decide
  have hev1 : evalInst (overflowLoop.inst 1) ((initState overflowLoop).set 0 (0, 0))
      = some (1073741824, 1073741824) := by
    decide
  unfold runOnFunction
  rw [hw]
  match fuel with
  | 0 => rfl
  | 1 =>
    rw [loop_step_change hev0 (by decide)]
    rfl
  | fuel + 2 =>
    rw [loop_step_change hev0 (by decide)]
    have hq : enqueueUsers overflowLoop [1] (overflowLoop.users 0) = [1] := by decide
    rw [hq, loop_step_change hev1 (by decide)]
    have hq2 : enqueueUsers overflowLoop [] (overflowLoop.users 1) = [0] := by decide
    rw [hq2]
    exact (overflowLoop_cycle fuel _).1 (by decide) (by decide)

/-- C2 (as stated) fails: on `overflowLoop`, a finite graph of one merge and
one addition, the run neither ends nor aborts, whatever the number of
iterations allowed: the upper bound of the addition wraps around and the
values cycle. -/
theorem termination_counterexample :
    overflowLoop.insts.length = 2 ∧ usersCompleteCheck overflowLoop = true ∧
      ¬ ∃ fuel, runOnFunction overflowLoop fuel ≠ .outOfFuel := by
  refine ⟨rfl, by decide, ?_⟩
  rintro ⟨fuel, h⟩
  exact h (overflowLoop_outOfFuel fuel)

end rangeanalysis

namespace interval

/-! ## The containment order -/

theorem below_refl (a : Interval) : below a a := ⟨le_refl _, le_refl _⟩

theorem below_trans {a b c : Interval} (h1 : below a b) (h2 : below b c) : below a c :=
  ⟨le_trans h2.1 h1.1, le_trans h1.2 h2.2⟩

theorem below_antisymm {a b : Interval} (h1 : below a b) (h2 : below b a) : a = b :=
  Prod.ext (le_antisymm h2.1 h1.1) (le_antisymm h1.2 h2.2)

theorem empty_below {x : Interval} (h : IntBounds x) : below empty x :=
  ⟨h.1.2, h.2.1⟩

theorem intBounds_lub {l r : Interval} (hl : IntBounds l) (hr : IntBounds r) :
    IntBounds (lub l r) := by
  rw [lub_componentwise hl hr]
  simp only [IntBounds, IsInt] at *
  omega

theorem lub_mono {a a' b b' : Interval} (ha : IntBounds a) (ha' : IntBounds a')
    (hb : IntBounds b) (hb' : IntBounds b') (h1 : below a a') (h2 : below b b') :
    below (lub a b) (lub a' b') := by
  rw [lub_componentwise ha hb, lub_componentwise ha' hb']
  simp only [below, lower, upper] at *
  omega

theorem intBounds_add (l r : Interval) : IntBounds (add l r) := by
  refine ⟨?_, ?_⟩ <;> simp only [add, make] <;> split_ifs <;>
    first
      | exact isInt_wrap _
      | decide

theorem intBounds_neg (i : Interval) : IntBounds (neg i) := by
  simp only [neg]
  split_ifs <;>
    first
      | decide
      | exact ⟨isInt_wrap _, isInt_wrap _⟩
      | exact ⟨by decide, isInt_wrap _⟩
      | exact ⟨isInt_wrap _, by decide⟩
      | (simp only [IntBounds, IsInt, make]
         have h1 := isInt_wrap (-(upper i))
         have h2 := isInt_wrap (-(lower i))
         simp only [IsInt] at h1 h2
         omega)

end interval

namespace rangeanalysis

open interval

/-! ## Invariants of the worklist loop -/

theorem height_lt {a b : Interval} (ha : IntBounds a) (hb : IntBounds b) (h : below a b)
    (hne : a ≠ b) : height b < height a := by
  obtain ⟨a1, a2⟩ := a
  obtain ⟨b1, b2⟩ := b
  have hne2 : ¬ (a1 = b1 ∧ a2 = b2) := fun e => hne (Prod.ext e.1 e.2)
  simp only [IntBounds, IsInt, below, lower, upper, height, minf, pinf] at *
  omega

theorem intBounds_getInterval {s : StateMap} (hs : StateInt s) (o : Operand) :
    IntBounds (getInterval o s) := by
  cases o with
  | const c => exact ⟨isInt_wrap c, isInt_wrap c⟩
  | val v =>
    simp only [getInterval, StateMap.lookup]
    cases h : s v with
    | none => decide
    | some x => exact hs v x h

theorem intBounds_lookup {s : StateMap} (hs : StateInt s) (n : Nat) :
    IntBounds (s.lookup n) := intBounds_getInterval hs (.val n)

theorem intBounds_foldl_lub {s : StateMap} (hs : StateInt s) (l : List Operand) :
    ∀ a : Interval, IntBounds a →
      IntBounds (l.foldl (fun current v => lub current (getInterval v s)) a) := by
  induction l with
  | nil => intro a ha; exact ha
  | cons o l ih =>
    intro a ha
    exact ih _ (intBounds_lub ha (intBounds_getInterval hs o))

/-- Whatever an evaluation returns has `int` bounds. -/
theorem intBounds_evalInst {s : StateMap} (hs : StateInt s) {i : Inst} {x : Interval}
    (h : evalInst i s = some x) : IntBounds x := by
  cases i with
  | phi incoming =>
    simp only [evalInst, Option.some.injEq] at h
    rw [← h]
    exact intBounds_foldl_lub hs incoming empty (by decide)
  | select c tv fv =>
    simp only [evalInst, Option.some.injEq] at h
    rw [← h]
    exact intBounds_lub (intBounds_getInterval hs tv) (intBounds_getInterval hs fv)
  | binop op l r =>
    cases op <;> simp only [evalInst, Option.some.injEq, reduceCtorEq] at h
    · rw [← h]; exact intBounds_add _ _
    · rw [← h]; exact intBounds_add _ _
    · rw [← h]; exact (by decide : IntBounds full)
    · rw [← h]; exact (by decide : IntBounds full)
  | icmp pred l r =>
    cases pred <;> simp only [evalInst, Option.some.injEq, reduceCtorEq] at h <;>
      (rw [← h]; exact (by decide : IntBounds unit))
  | alloca n => simp only [evalInst, Option.some.injEq] at h; rw [← h]; decide
  | load q => simp only [evalInst, Option.some.injEq] at h; rw [← h]; decide
  | call args => simp only [evalInst, Option.some.injEq] at h; rw [← h]; decide
  | other ops => simp only [evalInst, reduceCtorEq] at h

theorem stateInt_initState (g : Graph) : StateInt (initState g) := by
  intro n x h
  simp only [initState] at h
  split_ifs at h
  simp only [Option.some.injEq] at h
  rw [← h]; decide

theorem stateInt_set {s : StateMap} (hs : StateInt s) (i : Nat) {x : Interval}
    (hx : IntBounds x) : StateInt (s.set i x) := by
  intro n y h
  simp only [StateMap.set] at h
  split_ifs at h
  · simp only [Option.some.injEq] at h; rw [← h]; exact hx
  · exact hs n y h

/-- Only supported instructions evaluate without abort. -/
theorem classified_of_evalInst {g : Graph} {s : StateMap} {i : Nat} {x : Interval}
    (h : evalInst (g.inst i) s = some x) : g.classified i = true := by
  unfold Graph.classified
  cases hi : g.inst i <;> simp only [hi, evalInst, isSupported, reduceCtorEq] at h ⊢

/-- Whether an evaluation aborts does not depend on the state. -/
theorem evalInst_isSome (i : Inst) (s t : StateMap) :
    (evalInst i s).isSome = (evalInst i t).isSome := by
  cases i with
  | binop op l r => cases op <;> rfl
  | icmp pred l r => cases pred <;> rfl
  | _ => rfl

end rangeanalysis

namespace rangeanalysis

open interval

/-! ## Monotone evaluation -/

theorem getInterval_mono {s t : StateMap} (h : StateBelow s t) (o : Operand) :
    below (getInterval o s) (getInterval o t) := by
  cases o with
  | const c => exact below_refl _
  | val v => exact h v

theorem foldl_lub_mono {s t : StateMap} (hs : StateInt s) (ht : StateInt t)
    (h : StateBelow s t) (l : List Operand) :
    ∀ a b : Interval, IntBounds a → IntBounds b → below a b →
      below (l.foldl (fun current v => lub current (getInterval v s)) a)
        (l.foldl (fun current v => lub current (getInterval v t)) b) := by
  induction l with
  | nil => intro a b _ _ hab; exact hab
  | cons o l ih =>
    intro a b ha hb hab
    simp only [List.foldl_cons]
    exact ih _ _ (intBounds_lub ha (intBounds_getInterval hs o))
      (intBounds_lub hb (intBounds_getInterval ht o))
      (lub_mono ha hb (intBounds_getInterval hs o) (intBounds_getInterval ht o) hab
        (getInterval_mono h o))

/-- An instruction that does no bound arithmetic evaluates monotonically in
the state. -/
theorem evalInst_mono {s t : StateMap} (hs : StateInt s) (ht : StateInt t)
    (h : StateBelow s t) {i : Inst} (hi : i.addsBounds = false) {x : Interval}
    (hx : evalInst i s = some x) :
    ∃ y, evalInst i t = some y ∧ below x y := by
  cases i with
  | phi incoming =>
    simp only [evalInst, Option.some.injEq] at hx
    refine ⟨_, rfl, ?_⟩
    rw [← hx]
    exact foldl_lub_mono hs ht h incoming empty empty (by decide) (by decide) (below_refl _)
  | select c tv fv =>
    simp only [evalInst, Option.some.injEq] at hx
    refine ⟨_, rfl, ?_⟩
    rw [← hx]
    exact lub_mono (intBounds_getInterval hs tv) (intBounds_getInterval ht tv)
      (intBounds_getInterval hs fv) (intBounds_getInterval ht fv)
      (getInterval_mono h tv) (getInterval_mono h fv)
  | binop op l r =>
    cases op <;> simp only [Inst.addsBounds, reduceCtorEq] at hi <;>
      simp only [evalInst, Option.some.injEq, reduceCtorEq] at hx <;>
      exact ⟨x, by simp only [evalInst, mul, div, ← hx], below_refl _⟩
  | icmp pred l r =>
    cases pred <;> simp only [evalInst, Option.some.injEq, reduceCtorEq] at hx <;>
      exact ⟨x, by simp only [evalInst, eq, ne, lt, gt, ← hx], below_refl _⟩
  | alloca n => exact ⟨x, hx, below_refl _⟩
  | load q => exact ⟨x, hx, below_refl _⟩
  | call args => exact ⟨x, hx, below_refl _⟩
  | other ops => simp only [evalInst, reduceCtorEq] at hx

theorem addsBounds_inst {g : Graph} (hg : NoBoundArithmetic g) (n : Nat) :
    (g.inst n).addsBounds = false := by
  unfold Graph.inst
  rw [List.getD_eq_getElem?_getD]
  cases h : g.insts[n]? with
  | none => rfl
  | some i => exact hg i (List.getElem?_mem h)

theorem stateBelow_refl (s : StateMap) : StateBelow s s := fun _ => below_refl _

theorem stateBelow_set {s : StateMap} {i : Nat} {x : Interval} (h : below (s.lookup i) x) :
    StateBelow s (s.set i x) := by
  intro n
  by_cases e : n = i
  · subst e; rw [lookup_set_same]; exact h
  · rw [lookup_set_other s x e]; exact below_refl _

/-- Storing the value an instruction evaluates to keeps every instruction
below its own evaluation. -/
theorem ascending_set {g : Graph} (hg : NoBoundArithmetic g) {s : StateMap}
    (hs : StateInt s) (ha : Ascending g s) {i : Nat} {current : Interval}
    (hev : evalInst (g.inst i) s = some current) :
    Ascending g (s.set i current) := by
  have hci := classified_of_evalInst hev
  have hcur := intBounds_evalInst hs hev
  have hs' := stateInt_set hs i hcur
  have hb : StateBelow s (s.set i current) := stateBelow_set (ha i hci current hev)
  intro n hn y hy
  have hsome : (evalInst (g.inst n) s).isSome = true := by
    rw [evalInst_isSome _ s (s.set i current), hy]; rfl
  obtain ⟨x, hx⟩ := Option.isSome_iff_exists.1 hsome
  obtain ⟨y', hy', hxy⟩ := evalInst_mono hs hs' hb (addsBounds_inst hg n) hx
  rw [hy] at hy'
  cases hy'
  by_cases e : n = i
  · subst e
    rw [lookup_set_same]
    rw [hev] at hx
    cases hx
    exact hxy
  · rw [lookup_set_other s current e]
    exact below_trans (ha n hn x hx) hxy

theorem ascending_initState (g : Graph) : Ascending g (initState g) := by
  intro n hn x hx
  have : (initState g).lookup n = empty := by
    simp [StateMap.lookup, initState, hn]
  rw [this]
  exact empty_below (intBounds_evalInst (stateInt_initState g) hx)

/-! ## Termination -/

theorem potential_set_lt (g : Graph) (s : StateMap) {i : Nat} {x : Interval}
    (hi : i < g.insts.length) (h : height x < height (s.lookup i)) :
    potential g (s.set i x) < potential g s := by
  unfold potential
  apply List.sum_lt_sum
  · intro n _
    by_cases e : n = i
    · subst e; rw [lookup_set_same]; exact le_of_lt h
    · rw [lookup_set_other s x e]
  · refine ⟨i, List.mem_range.2 hi, ?_⟩
    rw [lookup_set_same]; exact h

/-- Along a run every stored interval has `int` bounds. -/
theorem stateInt_of_reach {g : Graph} {s : StateMap} {w : List Nat} (h : Reach g s w) :
    StateInt s := by
  induction h with
  | init => exact stateInt_initState g
  | same _ _ _ ih => exact ih
  | change _ hev _ ih => exact stateInt_set ih _ (intBounds_evalInst ih hev)

/-- Without bound arithmetic every instruction stays below its evaluation
along a run. -/
theorem ascending_of_reach {g : Graph} (hg : NoBoundArithmetic g) {s : StateMap}
    {w : List Nat} (h : Reach g s w) : Ascending g s := by
  induction h with
  | init => exact ascending_initState g
  | same _ _ _ ih => exact ih
  | change hr hev _ ih => exact ascending_set hg (stateInt_of_reach hr) ih hev

/-- Without binary `Add` and `Sub` the values of a run only move upward. -/
theorem upward_of_noBoundArithmetic {g : Graph} (hg : NoBoundArithmetic g) : Upward g := by
  intro s i w current hr hev
  exact ascending_of_reach hg hr i (classified_of_evalInst hev) current hev

/-- When values only move upward, the loop ends from every configuration of
the run: each change lowers the potential, each other iteration shortens the
worklist. -/
theorem loop_terminates {g : Graph} (hup : Upward g) :
    ∀ (p : Nat) (s : StateMap), potential g s < p →
      ∀ w : List Nat, Reach g s w → (∀ fuel, loop g fuel s w ≠ .abort) →
        ∃ fuel final, loop g fuel s w = .done final := by
  intro p
  induction p with
  | zero => intro s h; exact absurd h (Nat.not_lt_zero _)
  | succ p ihp =>
    intro s hp w
    induction w with
    | nil => intro _ _; exact ⟨0, s, rfl⟩
    | cons i w ihw =>
      intro hr hna
      have hs := stateInt_of_reach hr
      cases hev : evalInst (g.inst i) s with
      | none => exact absurd (loop_step_abort hev 0 w) (hna 1)
      | some current =>
        by_cases hne : s.lookup i = current
        · have hna' : ∀ fuel, loop g fuel s w ≠ .abort := by
            intro fuel
            rw [← loop_step_same hev hne fuel w]
            exact hna (fuel + 1)
          obtain ⟨fuel, final, hf⟩ := ihw (Reach.same hr hev hne) hna'
          exact ⟨fuel + 1, final, by rw [loop_step_same hev hne, hf]⟩
        · have hci := classified_of_evalInst hev
          have hcur := intBounds_evalInst hs hev
          have hlt : potential g (s.set i current) < potential g s :=
            potential_set_lt g s (classified_lt_length hci)
              (height_lt (intBounds_lookup hs i) hcur (hup s i w current hr hev) hne)
          have hna' : ∀ fuel,
              loop g fuel (s.set i current) (enqueueUsers g w (g.users i)) ≠ .abort := by
            intro fuel
            rw [← loop_step_change hev hne fuel w]
            exact hna (fuel + 1)
          obtain ⟨fuel, final, hf⟩ := ihp (s.set i current) (by omega) _
            (Reach.change hr hev hne) hna'
          exact ⟨fuel + 1, final, by rw [loop_step_change hev hne, hf]⟩

/-- More fuel does not change the outcome of a run that had enough. -/
theorem loop_fuel_mono (g : Graph) :
    ∀ (fuel : Nat) (s : StateMap) (w : List Nat), loop g fuel s w ≠ .outOfFuel →
      ∀ k, loop g (fuel + k) s w = loop g fuel s w := by
  intro fuel
  induction fuel with
  | zero =>
    intro s w h k
    cases w with
    | nil => rw [loop_nil, loop_nil]
    | cons i w => exact absurd rfl h
  | succ fuel ih =>
    intro s w h k
    cases w with
    | nil => rw [loop_nil, loop_nil]
    | cons i w =>
      have e : fuel + 1 + k = fuel + k + 1 := by omega
      rw [e]
      cases hev : evalInst (g.inst i) s with
      | none => rw [loop_step_abort hev, loop_step_abort hev]
      | some current =>
        by_cases hne : s.lookup i = current
        · rw [loop_step_same hev hne] at h ⊢
          rw [loop_step_same hev hne]
          exact ih s w h k
        · rw [loop_step_change hev hne] at h ⊢
          rw [loop_step_change hev hne]
          exact ih _ _ h k

/-- A run that ends normally with some fuel aborts with no fuel. -/
theorem not_abort_of_finished (g : Graph) (fuel : Nat)
    (h : (runOnFunction g fuel).finished = true) :
    ∀ k, runOnFunction g k ≠ .abort := by
  intro k hk
  have h1 : runOnFunction g fuel ≠ .outOfFuel := by
    intro e; rw [e] at h; cases h
  have h2 : runOnFunction g k ≠ .outOfFuel := by
    rw [hk]; intro e; cases e
  rcases le_total fuel k with hle | hle
  · obtain ⟨d, rfl⟩ := Nat.exists_eq_add_of_le hle
    have := loop_fuel_mono g fuel _ _ h1 d
    unfold runOnFunction at hk h
    rw [this] at hk
    rw [hk] at h
    cases h
  · obtain ⟨d, rfl⟩ := Nat.exists_eq_add_of_le hle
    have := loop_fuel_mono g k _ _ h2 d
    unfold runOnFunction at hk h
    rw [this, hk] at h
    cases h

/-- C2 (amended): on a finite graph on which no dispatch abort occurs and on
which every value the worklist loop computes is above the entry it replaces
(as on every graph without binary `Add` and `Sub` instructions), the worklist
loop ends: with enough iterations the worklist becomes empty. -/
theorem termination_when_upward (g : Graph) (hup : Upward g)
    (hna : ∀ fuel, runOnFunction g fuel ≠ .abort) :
    ∃ fuel final, runOnFunction g fuel = .done final :=
  loop_terminates hup (potential g (initState g) + 1) (initState g) (Nat.lt_succ_self _)
    (initWorklist g) Reach.init hna

theorem termination_when_upward_witness :
    Upward mergeLoop ∧ (∀ fuel, runOnFunction mergeLoop fuel ≠ .abort) ∧
      ∃ fuel final, runOnFunction mergeLoop fuel = .done final :=
  ⟨upward_of_noBoundArithmetic (by decide), not_abort_of_finished mergeLoop 6 (by decide),
    termination_when_upward mergeLoop (upward_of_noBoundArithmetic (by decide))
      (not_abort_of_finished mergeLoop 6 (by decide))⟩

end rangeanalysis

namespace rangeanalysis

open interval

/-! ## Order of enumeration of the users -/

/-- C3 (as stated) fails: `orderExample` and `orderExampleSwapped` have the
same instructions and differ only in the order in which the users of the
first merge are enumerated; both runs end without abort, and the final
intervals of the second merge (instruction 3) differ. -/
theorem order_independence_counterexample :
    orderExample.insts = orderExampleSwapped.insts ∧
    (∀ n, n ≠ 0 → orderExample.users n = orderExampleSwapped.users n) ∧
    orderExample.users 0 = [1, 2] ∧ orderExampleSwapped.users 0 = [2, 1] ∧
    usersCompleteCheck orderExample = true ∧
    usersCompleteCheck orderExampleSwapped = true ∧
    (runOnFunction orderExample 11).finished = true ∧
    (runOnFunction orderExampleSwapped 13).finished = true ∧
    (runOnFunction orderExample 11).entry 3 = some (0, 0) ∧
    (runOnFunction orderExampleSwapped 13).entry 3 = some (0, 1073741824) := by
  refine ⟨rfl, ?_, rfl, rfl, by decide, by decide, by decide, by decide, by decide,
    by decide⟩
  intro n hn
  simp only [orderExampleSwapped, hn, if_false]

theorem loop_stateInt_noStray {g : Graph} :
    ∀ (fuel : Nat) (s : StateMap) (w : List Nat) (s' : StateMap),
      StateInt s → NoStray g s → loop g fuel s w = .done s' →
        StateInt s' ∧ NoStray g s' := by
  intro fuel
  induction fuel with
  | zero =>
    intro s w s' hs hn h
    cases w with
    | nil => rw [loop_nil] at h; cases h; exact ⟨hs, hn⟩
    | cons i w => cases h
  | succ fuel ih =>
    intro s w s' hs hn h
    cases w with
    | nil => rw [loop_nil] at h; cases h; exact ⟨hs, hn⟩
    | cons i w =>
      cases hev : evalInst (g.inst i) s with
      | none => rw [loop_step_abort hev] at h; cases h
      | some current =>
        by_cases hne : s.lookup i = current
        · rw [loop_step_same hev hne] at h
          exact ih s w s' hs hn h
        · rw [loop_step_change hev hne] at h
          refine ih _ _ s' (stateInt_set hs i (intBounds_evalInst hs hev)) ?_ h
          intro n hc
          have e : n ≠ i := by
            intro e
            rw [e, classified_of_evalInst hev] at hc
            cases hc
          simp only [StateMap.set, e, if_false]
          exact hn n hc

theorem noStray_initState (g : Graph) : NoStray g (initState g) := by
  intro n hn
  simp [initState, hn]

theorem inst_eq_of_insts_eq {g1 g2 : Graph} (h : g1.insts = g2.insts) (n : Nat) :
    g1.inst n = g2.inst n := by
  simp only [Graph.inst, h]

theorem classified_eq_of_insts_eq {g1 g2 : Graph} (h : g1.insts = g2.insts) (n : Nat) :
    g1.classified n = g2.classified n := by
  simp only [Graph.classified, inst_eq_of_insts_eq h]

end rangeanalysis

namespace interval

/-! ## Imprecise operations and the ordering of bounds -/

/-- C11: `mul` and `div` return `full()` and the four comparisons return
`unit()`, which is `make(0, 1)`, whatever their operands. -/
theorem imprecise_operations (l r : Interval) :
    mul l r = full ∧ div l r = full ∧
      lt l r = unit ∧ gt l r = unit ∧ eq l r = unit ∧ ne l r = unit ∧
      unit = make 0 1 ∧
      mul (make 2 5) (make 1 1) = full ∧ lt (make 1 1) (make 5 5) = make 0 1 :=
  ⟨rfl, rfl, rfl, rfl, rfl, rfl, rfl, rfl, rfl⟩

theorem ordered_lub {l r : Interval} (hl : IntBounds l) (hr : IntBounds r)
    (ol : Ordered l) (or : Ordered r) : Ordered (lub l r) := by
  rw [lub_componentwise hl hr]
  obtain ⟨a, b⟩ := l
  obtain ⟨c, d⟩ := r
  simp only [Ordered, IntBounds, IsInt, empty, make, lower, upper, minf, pinf,
    Prod.mk.injEq] at *
  omega

theorem ordered_neg {i : Interval} (hi : IntBounds i) (oi : Ordered i) :
    Ordered (neg i) := by
  obtain ⟨a, b⟩ := i
  have h1 := isInt_wrap (-b)
  have h2 := isInt_wrap (-a)
  simp only [neg, full, empty, make, lower, upper, minf, pinf]
  generalize wrap (-b) = x at h1 ⊢
  generalize wrap (-a) = y at h2 ⊢
  simp only [Ordered, IntBounds, IsInt, empty, make, lower, upper, minf, pinf,
    Prod.mk.injEq] at hi oi h1 h2
  split_ifs <;>
    simp only [Ordered, full, empty, make, lower, upper, minf, pinf, Prod.mk.injEq] <;>
    first
      | omega
      | simp

theorem ordered_add {l r : Interval} (hl : IntBounds l) (hr : IntBounds r)
    (ol : Ordered l) (or : Ordered r) (hf : AddFits l r) : Ordered (add l r) := by
  obtain ⟨a, b⟩ := l
  obtain ⟨c, d⟩ := r
  have w1 : IsInt (a + c) → wrap (a + c) = a + c := wrap_of_isInt
  have w2 : IsInt (b + d) → wrap (b + d) = b + d := wrap_of_isInt
  have h1 := isInt_wrap (a + c)
  have h2 := isInt_wrap (b + d)
  simp only [add, make, lower, upper, minf, pinf]
  generalize wrap (a + c) = x at w1 h1 ⊢
  generalize wrap (b + d) = y at w2 h2 ⊢
  simp only [Ordered, AddFits, IntBounds, IsInt, empty, make, lower, upper, minf, pinf,
    Prod.mk.injEq, ne_eq] at hl hr ol or hf w1 w2 h1 h2
  split_ifs <;>
    simp only [Ordered, empty, make, lower, upper, minf, pinf, Prod.mk.injEq] <;>
    first
      | omega
      | simp

theorem lub_assoc_of_intBounds {a b c : Interval} (ha : IntBounds a) (hb : IntBounds b)
    (hc : IntBounds c) : lub (lub a b) c = lub a (lub b c) := by
  rw [lub_componentwise (intBounds_lub ha hb) hc, lub_componentwise ha hb,
    lub_componentwise ha (intBounds_lub hb hc), lub_componentwise hb hc]
  refine Prod.ext ?_ ?_ <;> dsimp only <;> omega

theorem lub_right_comm_of_intBounds {a b c : Interval} (ha : IntBounds a)
    (hb : IntBounds b) (hc : IntBounds c) : lub (lub a b) c = lub (lub a c) b := by
  rw [lub_componentwise (intBounds_lub ha hb) hc, lub_componentwise ha hb,
    lub_componentwise (intBounds_lub ha hc) hb, lub_componentwise ha hc]
  refine Prod.ext ?_ ?_ <;> dsimp only <;> omega

/-- C17 (amended): the intervals with `int` bounds that are `empty()` or have
lower bound at most upper bound are closed under `lub` and `neg`, and under
`add` and `sub` whenever the sums of non-sentinel bounds that the addition
computes are `int` values. -/
theorem ordering_invariant (l r : Interval) (hl : IntBounds l) (hr : IntBounds r)
    (ol : Ordered l) (or : Ordered r) :
    Ordered (lub l r) ∧ Ordered (neg l) ∧
      (AddFits l r → Ordered (add l r)) ∧
      (AddFits l (neg r) → Ordered (sub l r)) :=
  ⟨ordered_lub hl hr ol or, ordered_neg hl ol, ordered_add hl hr ol or,
    ordered_add hl (intBounds_neg r) ol (ordered_neg hr or)⟩

theorem ordering_invariant_witness :
    IntBounds (make 1 3) ∧ IntBounds (make 2 5) ∧ Ordered (make 1 3) ∧ Ordered (make 2 5) ∧
      AddFits (make 1 3) (make 2 5) ∧ AddFits (make 1 3) (neg (make 2 5)) ∧
      Ordered (lub (make 1 3) (make 2 5)) ∧ Ordered (neg (make 1 3)) ∧
      (AddFits (make 1 3) (make 2 5) → Ordered (add (make 1 3) (make 2 5))) ∧
      (AddFits (make 1 3) (neg (make 2 5)) → Ordered (sub (make 1 3) (make 2 5))) :=
  ⟨by decide, by decide, by decide, by decide,
    ⟨fun _ _ _ _ => by decide, fun _ _ _ _ => by decide⟩,
    ⟨fun _ _ _ _ => by decide, fun _ _ _ _ => by decide⟩,
    ordering_invariant (make 1 3) (make 2 5) (by decide) (by decide) (by decide)
      (by decide)⟩

end interval

namespace rangeanalysis

open interval

/-! ## Inverted intervals in a run, and the order of the incoming edges of a merge -/

/-- C17 (as stated) fails: `[0,2^30]` has `int` bounds and is ordered, yet
`add([0,2^30],[0,2^30])` is `(0, minf)`, which is not `empty()` and has its
lower bound above its upper bound; the engine stores this interval for
instruction 2 of `orderExample`. -/
theorem ordering_invariant_counterexample :
    IntBounds (make 0 1073741824) ∧ Ordered (make 0 1073741824) ∧
      add (make 0 1073741824) (make 0 1073741824) = make 0 minf ∧
      ¬ Ordered (add (make 0 1073741824) (make 0 1073741824)) ∧
      ¬ Ordered (sub (make 0 1073741824) (make (-1073741824) 0)) ∧
      (runOnFunction orderExample 11).finished = true ∧
      (runOnFunction orderExample 11).entry 2 = some (make 0 minf) := by
  decide

theorem foldl_lub_perm {s : StateMap} (hs : StateInt s) {xs ys : List Operand}
    (p : List.Perm xs ys) :
    ∀ a : Interval, IntBounds a →
      xs.foldl (fun current v => lub current (getInterval v s)) a
        = ys.foldl (fun current v => lub current (getInterval v s)) a := by
  induction p with
  | nil => intro a _; rfl
  | cons x _ ih =>
    intro a ha
    simp only [List.foldl_cons]
    exact ih _ (intBounds_lub ha (intBounds_getInterval hs x))
  | swap x y l =>
    intro a ha
    simp only [List.foldl_cons]
    rw [lub_right_comm_of_intBounds ha (intBounds_getInterval hs y)
      (intBounds_getInterval hs x)]
  | trans _ _ ih1 ih2 =>
    intro a ha
    rw [ih1 a ha, ih2 a ha]

/-- C19: on intervals with `int` bounds the case analysis of `lub` is the
componentwise minimum of the lower and maximum of the upper bounds; hence
`lub` is associative, and the fold of a merge does not depend on the order of
its incoming edges. -/
theorem lub_componentwise_refinement (l r t : Interval) (hl : IntBounds l)
    (hr : IntBounds r) (ht : IntBounds t) :
    lub l r = make (min (lower l) (lower r)) (max (upper l) (upper r)) ∧
      lub (lub l r) t = lub l (lub r t) ∧
      ∀ s : StateMap, StateInt s → ∀ xs ys : List Operand, List.Perm xs ys →
        evalInst (.phi xs) s = evalInst (.phi ys) s := by
  refine ⟨lub_componentwise hl hr, lub_assoc_of_intBounds hl hr ht, ?_⟩
  intro s hs xs ys p
  simp only [evalInst, Option.some.injEq]
  exact foldl_lub_perm hs p empty (by decide)

theorem lub_componentwise_refinement_witness :
    IntBounds (make 3 minf) ∧ IntBounds (make minf 2) ∧ IntBounds empty ∧
      lub (make 3 minf) (make minf 2)
        = make (min (lower (make 3 minf)) (lower (make minf 2)))
            (max (upper (make 3 minf)) (upper (make minf 2))) ∧
      lub (lub (make 3 minf) (make minf 2)) empty
        = lub (make 3 minf) (lub (make minf 2) empty) ∧
      ∀ s : StateMap, StateInt s → ∀ xs ys : List Operand, List.Perm xs ys →
        evalInst (.phi xs) s = evalInst (.phi ys) s :=
  ⟨by decide, by decide, by decide,
    lub_componentwise_refinement (make 3 minf) (make minf 2) empty (by decide) (by decide)
      (by decide)⟩

end rangeanalysis

namespace rangeanalysis

open interval

/-! ## Instructions whose value does not depend on the state -/

/-- An instruction that evaluates to the same interval in every state has
that interval as its entry when the run ends. -/
theorem loop_fixed_node {g : Graph} {n : Nat} {v : Interval}
    (hfix : ∀ s, evalInst (g.inst n) s = some v) :
    ∀ (fuel : Nat) (s : StateMap) (w : List Nat) (final : StateMap),
      (∃ x, s n = some x) → (n ∈ w ∨ s n = some v) →
        loop g fuel s w = .done final → final n = some v := by
  intro fuel
  induction fuel with
  | zero =>
    intro s w final _ hw h
    cases w with
    | nil =>
      rw [loop_nil] at h; cases h
      exact hw.resolve_left (List.not_mem_nil n)
    | cons i w => cases h
  | succ fuel ih =>
    intro s w final hd hw h
    cases w with
    | nil =>
      rw [loop_nil] at h; cases h
      exact hw.resolve_left (List.not_mem_nil n)
    | cons i w =>
      cases hev : evalInst (g.inst i) s with
      | none => rw [loop_step_abort hev] at h; cases h
      | some current =>
        by_cases hne : s.lookup i = current
        · rw [loop_step_same hev hne] at h
          refine ih s w final hd ?_ h
          rcases hw with hw | hw
          · rcases List.mem_cons.1 hw with e | hw
            · subst e
              rw [hfix s] at hev
              cases hev
              obtain ⟨x, hx⟩ := hd
              right
              simp only [StateMap.lookup, hx, Option.getD_some] at hne
              rw [hx, hne]
            · exact Or.inl hw
          · exact Or.inr hw
        · rw [loop_step_change hev hne] at h
          by_cases e : n = i
          · subst e
            rw [hfix s] at hev
            cases hev
            exact ih _ _ final ⟨v, by simp [StateMap.set]⟩
              (Or.inr (by simp [StateMap.set])) h
          · have hset : (s.set i current) n = s n := by simp [StateMap.set, e]
            refine ih _ _ final (by rw [hset]; exact hd) ?_ h
            rcases hw with hw | hw
            · rcases List.mem_cons.1 hw with e' | hw
              · exact absurd e' e
              · exact Or.inl (mem_enqueueUsers_of_mem g _ _ n hw)
            · exact Or.inr (by rw [hset]; exact hw)

theorem final_of_fixed_node {g : Graph} {n : Nat} {v : Interval}
    (hfix : ∀ s, evalInst (g.inst n) s = some v) {fuel : Nat} {final : StateMap}
    (hrun : runOnFunction g fuel = .done final) : final n = some v := by
  have hc : g.classified n = true := classified_of_evalInst (hfix (initState g))
  exact loop_fixed_node hfix fuel (initState g) (initWorklist g) final
    (defined_initState g n hc) (Or.inl (mem_initWorklist hc)) hrun

/-- C14: when the run ends without abort, every allocation, load and call has
the entry `full()` in the final state, whatever its operands. -/
theorem memory_nodes_full (g : Graph) (fuel : Nat) (final : StateMap)
    (hrun : runOnFunction g fuel = .done final) (n : Nat)
    (hn : (∃ size, g.inst n = .alloca size) ∨ (∃ ptr, g.inst n = .load ptr) ∨
      (∃ args, g.inst n = .call args)) :
    final n = some full ∧ full = make minf pinf := by
  refine ⟨?_, rfl⟩
  apply final_of_fixed_node _ hrun
  intro s
  rcases hn with ⟨x, h⟩ | ⟨x, h⟩ | ⟨x, h⟩ <;> rw [h] <;> rfl

theorem memory_nodes_full_witness :
    runOnFunction mergeExample 6 = .done (runOnFunction mergeExample 6).state ∧
      mergeExample.inst 2 = .load (.val 9) ∧
      (runOnFunction mergeExample 6).state 2 = some full :=
  ⟨done_of_finished (by decide), rfl,
    (memory_nodes_full mergeExample 6 _ (done_of_finished (by decide)) 2
      (Or.inr (Or.inl ⟨.val 9, rfl⟩))).1⟩

end rangeanalysis

namespace rangeanalysis

open interval

/-! ## Dispatch failure -/

theorem evalInst_eq_none (ins : Inst) (s : StateMap) :
    evalInst ins s = none ↔ (isSupported ins = false ∨ ins.dispatchFails = true) := by
  cases ins with
  | binop op l r => cases op <;> simp [evalInst, isSupported, Inst.dispatchFails]
  | icmp pred l r => cases pred <;> simp [evalInst, isSupported, Inst.dispatchFails]
  | _ => simp [evalInst, isSupported, Inst.dispatchFails]

theorem dispatchFails_iff (ins : Inst) :
    ins.dispatchFails = true ↔
      (∃ op l r, ins = .binop op l r ∧ op ≠ .Add ∧ op ≠ .Sub ∧ op ≠ .Mul ∧ op ≠ .SDiv) ∨
      (∃ pred l r, ins = .icmp pred l r ∧ pred ≠ .ICMP_EQ ∧ pred ≠ .ICMP_NE ∧
        pred ≠ .ICMP_SLT ∧ pred ≠ .ICMP_SGT) := by
  cases ins with
  | binop op l r => cases op <;> simp [Inst.dispatchFails]
  | icmp pred l r => cases pred <;> simp [Inst.dispatchFails]
  | _ => simp [Inst.dispatchFails]

theorem mem_enqueueUsers_classified (g : Graph) (us : List Nat) :
    ∀ (w : List Nat) (x : Nat), x ∈ enqueueUsers g w us → x ∈ w ∨ g.classified x = true := by
  induction us with
  | nil => intro w x hx; exact Or.inl hx
  | cons u us ih =>
    intro w x hx
    simp only [enqueueUsers, List.foldl_cons] at hx
    rcases ih _ x hx with h | h
    · split_ifs at h with hc
      · rcases List.mem_append.1 h with h | h
        · exact Or.inl h
        · rw [List.mem_singleton.1 h]; exact Or.inr hc.1
      · exact Or.inl h
    · exact Or.inr h

theorem enqueueUsers_eq_append (g : Graph) (us : List Nat) :
    ∀ w : List Nat, ∃ extra, enqueueUsers g w us = w ++ extra := by
  induction us with
  | nil => intro w; exact ⟨[], (List.append_nil w).symm⟩
  | cons u us ih =>
    intro w
    simp only [enqueueUsers, List.foldl_cons]
    split_ifs
    · obtain ⟨extra, h⟩ := ih (w ++ [u])
      exact ⟨[u] ++ extra, by rw [← List.append_assoc]; exact h⟩
    · exact ih w

/-- An abort of the loop comes from an instruction of the worklist. -/
theorem loop_abort_cause {g : Graph} :
    ∀ (fuel : Nat) (s : StateMap) (w : List Nat),
      (∀ i ∈ w, g.classified i = true) → loop g fuel s w = .abort →
        ∃ n, g.classified n = true ∧ (g.inst n).dispatchFails = true := by
  intro fuel
  induction fuel with
  | zero =>
    intro s w _ h
    cases w <;> cases h
  | succ fuel ih =>
    intro s w hw h
    cases w with
    | nil => cases h
    | cons i w =>
      have hi := hw i (List.mem_cons_self i w)
      have hw' : ∀ j ∈ w, g.classified j = true :=
        fun j hj => hw j (List.mem_cons_of_mem i hj)
      cases hev : evalInst (g.inst i) s with
      | none =>
        rcases (evalInst_eq_none _ _).1 hev with h1 | h1
        · rw [Graph.classified, h1] at hi; cases hi
        · exact ⟨i, hi, h1⟩
      | some current =>
        by_cases hne : s.lookup i = current
        · rw [loop_step_same hev hne] at h
          exact ih s w hw' h
        · rw [loop_step_change hev hne] at h
          refine ih _ _ ?_ h
          intro j hj
          rcases mem_enqueueUsers_classified g _ _ j hj with h1 | h1
          · exact hw' j h1
          · exact h1

/-- An instruction of the worklist whose dispatch fails is reached, unless the
loop aborts before. -/
theorem loop_aborts {g : Graph} {b : Nat} (hb : (g.inst b).dispatchFails = true) :
    ∀ (pre : List Nat) (s : StateMap) (post : List Nat),
      ∃ fuel, loop g fuel s (pre ++ b :: post) = .abort := by
  intro pre
  induction pre with
  | nil =>
    intro s post
    exact ⟨1, loop_step_abort ((evalInst_eq_none _ s).2 (Or.inr hb)) 0 post⟩
  | cons i pre ih =>
    intro s post
    cases hev : evalInst (g.inst i) s with
    | none => exact ⟨1, loop_step_abort hev 0 _⟩
    | some current =>
      by_cases hne : s.lookup i = current
      · obtain ⟨fuel, h⟩ := ih s post
        exact ⟨fuel + 1, by rw [List.cons_append, loop_step_same hev hne, h]⟩
      · obtain ⟨extra, he⟩ := enqueueUsers_eq_append g (g.users i) (pre ++ b :: post)
        obtain ⟨fuel, h⟩ := ih (s.set i current) (post ++ extra)
        refine ⟨fuel + 1, ?_⟩
        rw [List.cons_append, loop_step_change hev hne, he, List.append_assoc,
          List.cons_append, h]

/-- C15: a run aborts exactly when the function has a supported binary
operator whose opcode is not `Add`, `Sub`, `Mul` or `SDiv`, or a supported
integer comparison whose signed predicate is not `EQ`, `NE`, `SLT` or `SGT`;
no other instruction makes a run abort. -/
theorem dispatch_failure (g : Graph) :
    (∃ fuel, runOnFunction g fuel = .abort) ↔
      ∃ n, g.classified n = true ∧
        ((∃ op l r, g.inst n = .binop op l r ∧
            op ≠ .Add ∧ op ≠ .Sub ∧ op ≠ .Mul ∧ op ≠ .SDiv) ∨
          (∃ pred l r, g.inst n = .icmp pred l r ∧ pred ≠ .ICMP_EQ ∧ pred ≠ .ICMP_NE ∧
            pred ≠ .ICMP_SLT ∧ pred ≠ .ICMP_SGT)) := by
  constructor
  · rintro ⟨fuel, h⟩
    have hw : ∀ i ∈ initWorklist g, g.classified i = true := by
      intro i hi
      simp only [initWorklist, List.mem_filter] at hi
      exact hi.2
    obtain ⟨n, hn, hd⟩ := loop_abort_cause fuel (initState g) (initWorklist g) hw h
    exact ⟨n, hn, (dispatchFails_iff _).1 hd⟩
  · rintro ⟨n, hn, hd⟩
    obtain ⟨pre, post, hsplit⟩ := List.append_of_mem (mem_initWorklist hn)
    obtain ⟨fuel, h⟩ := loop_aborts ((dispatchFails_iff _).2 hd) pre (initState g) post
    exact ⟨fuel, by rw [runOnFunction, hsplit, h]⟩

end rangeanalysis

namespace rangeanalysis

open interval

/-! ## The worklist holds every instruction at most once -/

theorem nodup_enqueueUsers (g : Graph) (us : List Nat) :
    ∀ w : List Nat, w.Nodup → (enqueueUsers g w us).Nodup := by
  induction us with
  | nil => intro w hw; exact hw
  | cons u us ih =>
    intro w hw
    simp only [enqueueUsers, List.foldl_cons]
    apply ih
    split_ifs with hc
    · refine List.Nodup.append hw (List.nodup_singleton u) ?_
      intro x hx hx'
      rw [List.mem_singleton.1 hx'] at hx
      exact hc.2 hx
    · exact hw

theorem nodup_initWorklist (g : Graph) : (initWorklist g).Nodup :=
  List.Nodup.filter _ (List.nodup_range _)

/-- C16: after the initialisation and after every iteration of the worklist
loop no instruction occurs twice in the worklist, and re-enqueueing any list
of users (with repetitions, with the instruction itself) keeps it so. -/
theorem worklist_nodup (g : Graph) (s : StateMap) (w : List Nat) (h : Reach g s w) :
    w.Nodup ∧ ∀ us : List Nat, (enqueueUsers g w us).Nodup := by
  have hw : w.Nodup := by
    induction h with
    | init => exact nodup_initWorklist g
    | same _ _ _ ih => exact (List.nodup_cons.1 ih).2
    | change _ _ _ ih => exact nodup_enqueueUsers g _ _ (List.nodup_cons.1 ih).2
  exact ⟨hw, fun us => nodup_enqueueUsers g us w hw⟩

theorem worklist_nodup_witness :
    Reach orderExample ((initState orderExample).set 0 (make 0 0)) [1, 2, 3, 4] ∧
      ([1, 2, 3, 4] : List Nat).Nodup ∧
      ∀ us : List Nat, (enqueueUsers orderExample [1, 2, 3, 4] us).Nodup :=
  have hr : Reach orderExample ((initState orderExample).set 0 (make 0 0)) [1, 2, 3, 4] :=
    Reach.change (i := 0) (w := [1, 2, 3, 4]) Reach.init (by decide) (by decide)
  ⟨hr, worklist_nodup orderExample _ _ hr⟩

/-! ## Direction in which the values move -/

theorem lub_eq_right_of_below {a b : Interval} (ha : IntBounds a) (hb : IntBounds b)
    (h : below a b) : lub a b = b := by
  rw [lub_componentwise ha hb]
  simp only [below, lower, upper] at h
  exact Prod.ext (min_eq_right h.1) (max_eq_right h.2)

/-- C18 (as stated) fails: in the run on `overflowLoop` the merge has the
entry `[0,2^30]` when the loop computes `[0,0]` for it and stores it: the new
value is not above the old one, and their `lub` is not the new value. -/
theorem values_move_upward_counterexample :
    ∃ (s : StateMap) (w : List Nat) (current : Interval),
      Reach overflowLoop s (0 :: w) ∧ evalInst (overflowLoop.inst 0) s = some current ∧
        s.lookup 0 = make 0 1073741824 ∧ current = make 0 0 ∧ s.lookup 0 ≠ current ∧
        ¬ below (s.lookup 0) current ∧ lub (s.lookup 0) current ≠ current :=
  have r1 : Reach overflowLoop ((initState overflowLoop).set 0 (0, 0)) [1] :=
    Reach.change (i := 0) (w := [1]) Reach.init (by decide) (by decide)
  have r2 : Reach overflowLoop
      (((initState overflowLoop).set 0 (0, 0)).set 1 (1073741824, 1073741824)) [0] :=
    Reach.change (i := 1) (w := []) r1 (by decide) (by decide)
  have r3 : Reach overflowLoop
      ((((initState overflowLoop).set 0 (0, 0)).set 1 (1073741824, 1073741824)).set 0
        (0, 1073741824)) [1] :=
    Reach.change (i := 0) (w := []) r2 (by decide) (by decide)
  have r4 : Reach overflowLoop
      (((((initState overflowLoop).set 0 (0, 0)).set 1 (1073741824, 1073741824)).set 0
        (0, 1073741824)).set 1 (1073741824, minf)) [0] :=
    Reach.change (i := 1) (w := []) r3 (by decide) (by decide)
  ⟨_, [], (0, 0), r4, by decide, by decide, rfl, by decide, by decide, by decide⟩

/-! ## Values without an entry -/

theorem loop_defined {g : Graph} :
    ∀ (fuel : Nat) (s : StateMap) (w : List Nat) (final : StateMap),
      Defined g s → loop g fuel s w = .done final → Defined g final := by
  intro fuel
  induction fuel with
  | zero =>
    intro s w final hd h
    cases w with
    | nil => rw [loop_nil] at h; cases h; exact hd
    | cons i w => cases h
  | succ fuel ih =>
    intro s w final hd h
    cases w with
    | nil => rw [loop_nil] at h; cases h; exact hd
    | cons i w =>
      cases hev : evalInst (g.inst i) s with
      | none => rw [loop_step_abort hev] at h; cases h
      | some current =>
        by_cases hne : s.lookup i = current
        · rw [loop_step_same hev hne] at h
          exact ih s w final hd h
        · rw [loop_step_change hev hne] at h
          exact ih _ _ final (defined_set hd i current) h

/-- C20: an operand that is no constant and has no entry in the state
resolves to `make(0, 0)`; a lookup returns an interval and no state, so no
entry is created, and when the run ends the values with an entry are exactly
the supported instructions (every other value still resolves to `[0,0]`). -/
theorem operands_outside_state (g : Graph) (fuel : Nat) (final : StateMap)
    (hrun : runOnFunction g fuel = .done final) :
    (∀ (s : StateMap) (v : Nat), s v = none → getInterval (.val v) s = make 0 0) ∧
      (∀ v, (final v).isSome = g.classified v) ∧
      ∀ v, g.classified v = false → final v = none ∧ getInterval (.val v) final = make 0 0 := by
  have hd := loop_defined fuel (initState g) (initWorklist g) final (defined_initState g) hrun
  have hn := (loop_stateInt_noStray fuel (initState g) (initWorklist g) final
    (stateInt_initState g) (noStray_initState g) hrun).2
  have h0 : ∀ (s : StateMap) (v : Nat), s v = none → getInterval (.val v) s = make 0 0 := by
    intro s v h
    simp only [getInterval, StateMap.lookup, h, Option.getD_none]
  refine ⟨h0, ?_, fun v hv => ⟨hn v hv, h0 final v (hn v hv)⟩⟩
  intro v
  cases hc : g.classified v with
  | true =>
    obtain ⟨x, hx⟩ := hd v hc
    rw [hx]; rfl
  | false => rw [hn v hc]; rfl

theorem operands_outside_state_witness :
    runOnFunction mergeExample 6 = .done (runOnFunction mergeExample 6).state ∧
      mergeExample.classified 9 = false ∧
      (runOnFunction mergeExample 6).state 9 = none ∧
      getInterval (.val 9) (runOnFunction mergeExample 6).state = make 0 0 :=
  ⟨done_of_finished (by decide), by decide,
    (operands_outside_state mergeExample 6 _ (done_of_finished (by decide))).2.2 9
      (by decide)⟩

end rangeanalysis

namespace interval

/-! ## Monotone arithmetic when the sums fit -/

/-- The operation `add` is monotone in both arguments when the sums it
computes fit `int`. -/
theorem add_mono {l l' r r' : Interval} (hl : IntBounds l) (hl' : IntBounds l')
    (hr : IntBounds r) (hr' : IntBounds r') (h1 : below l l') (h2 : below r r')
    (hf : AddFits l r) (hf' : AddFits l' r') : below (add l r) (add l' r') := by
  obtain ⟨a, b⟩ := l
  obtain ⟨c, d⟩ := r
  obtain ⟨a', b'⟩ := l'
  obtain ⟨c', d'⟩ := r'
  have w1 : IsInt (a + c) → wrap (a + c) = a + c := wrap_of_isInt
  have w2 : IsInt (b + d) → wrap (b + d) = b + d := wrap_of_isInt
  have w3 : IsInt (a' + c') → wrap (a' + c') = a' + c' := wrap_of_isInt
  have w4 : IsInt (b' + d') → wrap (b' + d') = b' + d' := wrap_of_isInt
  have i1 := isInt_wrap (a + c)
  have i2 := isInt_wrap (b + d)
  have i3 := isInt_wrap (a' + c')
  have i4 := isInt_wrap (b' + d')
  simp only [add, make, lower, upper, minf, pinf, below]
  generalize wrap (a + c) = x1 at w1 i1 ⊢
  generalize wrap (b + d) = x2 at w2 i2 ⊢
  generalize wrap (a' + c') = x3 at w3 i3 ⊢
  generalize wrap (b' + d') = x4 at w4 i4 ⊢
  simp only [AddFits, IntBounds, IsInt, below, make, lower, upper, minf, pinf, ne_eq]
    at hl hl' hr hr' h1 h2 hf hf' w1 w2 w3 w4 i1 i2 i3 i4
  constructor <;> split_ifs <;> omega

/-- On an interval that is `empty()` or has its lower bound at most its upper
bound, `neg` swaps the bounds and negates each, a sentinel becoming the
opposite sentinel. -/
theorem neg_of_ordered {i : Interval} (hi : IntBounds i) (oi : Ordered i) :
    neg i = (if i.2 = minf then pinf else if i.2 = pinf then minf else -i.2,
             if i.1 = minf then pinf else if i.1 = pinf then minf else -i.1) := by
  obtain ⟨a, b⟩ := i
  have w1 : IsInt (-a) → wrap (-a) = -a := wrap_of_isInt
  have w2 : IsInt (-b) → wrap (-b) = -b := wrap_of_isInt
  simp only [neg, full, empty, make, lower, upper, minf, pinf]
  generalize wrap (-a) = x1 at w1 ⊢
  generalize wrap (-b) = x2 at w2 ⊢
  simp only [Ordered, IntBounds, IsInt, empty, make, lower, upper, minf, pinf,
    Prod.mk.injEq] at hi oi w1 w2
  split_ifs <;> refine Prod.ext ?_ ?_ <;> dsimp only <;> omega

/-- The operation `neg` is monotone on intervals that are `empty()` or have
their lower bound at most their upper bound. -/
theorem neg_mono {i j : Interval} (hi : IntBounds i) (hj : IntBounds j)
    (oi : Ordered i) (oj : Ordered j) (h : below i j) : below (neg i) (neg j) := by
  rw [neg_of_ordered hi oi, neg_of_ordered hj oj]
  obtain ⟨a, b⟩ := i
  obtain ⟨c, d⟩ := j
  simp only [IntBounds, IsInt, below, lower, upper, minf, pinf] at *
  constructor <;> split_ifs <;> omega

end interval

namespace rangeanalysis

open interval

/-! ## Runs in which no sum of bounds overflows -/

theorem ordered_getInterval {s : StateMap} (ho : OrderedState s) (o : Operand) :
    Ordered (getInterval o s) := by
  cases o with
  | const c => exact Or.inr (le_refl _)
  | val v =>
    simp only [getInterval, StateMap.lookup]
    cases h : s v with
    | none => decide
    | some x => exact ho v x h

theorem ordered_lookup {s : StateMap} (ho : OrderedState s) (n : Nat) :
    Ordered (s.lookup n) := ordered_getInterval ho (.val n)

theorem ordered_foldl_lub {s : StateMap} (hs : StateInt s) (ho : OrderedState s)
    (l : List Operand) :
    ∀ a : Interval, IntBounds a → Ordered a →
      Ordered (l.foldl (fun current v => lub current (getInterval v s)) a) := by
  induction l with
  | nil => intro a _ oa; exact oa
  | cons o l ih =>
    intro a ha oa
    exact ih _ (intBounds_lub ha (intBounds_getInterval hs o))
      (ordered_lub ha (intBounds_getInterval hs o) oa (ordered_getInterval ho o))

/-- An evaluation whose sums fit returns an interval that is `empty()` or has
its lower bound at most its upper bound. -/
theorem ordered_evalInst {s : StateMap} (hs : StateInt s) (ho : OrderedState s)
    {i : Inst} (hf : i.sumsFit s) {x : Interval} (h : evalInst i s = some x) :
    Ordered x := by
  cases i with
  | phi incoming =>
    simp only [evalInst, Option.some.injEq] at h
    rw [← h]
    exact ordered_foldl_lub hs ho incoming empty (by decide) (by decide)
  | select c tv fv =>
    simp only [evalInst, Option.some.injEq] at h
    rw [← h]
    exact ordered_lub (intBounds_getInterval hs tv) (intBounds_getInterval hs fv)
      (ordered_getInterval ho tv) (ordered_getInterval ho fv)
  | binop op l r =>
    cases op <;> simp only [evalInst, Option.some.injEq, reduceCtorEq] at h
    · rw [← h]
      exact ordered_add (intBounds_getInterval hs l) (intBounds_getInterval hs r)
        (ordered_getInterval ho l) (ordered_getInterval ho r) hf
    · rw [← h]
      exact ordered_add (intBounds_getInterval hs l) (intBounds_neg _)
        (ordered_getInterval ho l)
        (ordered_neg (intBounds_getInterval hs r) (ordered_getInterval ho r)) hf
    · rw [← h]; exact (by decide : Ordered full)
    · rw [← h]; exact (by decide : Ordered full)
  | icmp pred l r =>
    cases pred <;> simp only [evalInst, Option.some.injEq, reduceCtorEq] at h <;>
      (rw [← h]; exact (by decide : Ordered unit))
  | alloca n => simp only [evalInst, Option.some.injEq] at h; rw [← h]; decide
  | load q => simp only [evalInst, Option.some.injEq] at h; rw [← h]; decide
  | call args => simp only [evalInst, Option.some.injEq] at h; rw [← h]; decide
  | other ops => simp only [evalInst, reduceCtorEq] at h

/-- Evaluation is monotone in the state between two states in which the sums
of the instruction fit. -/
theorem evalInst_mono_fits {s t : StateMap} (hs : StateInt s) (ht : StateInt t)
    (os : OrderedState s) (ot : OrderedState t) (h : StateBelow s t) {i : Inst}
    (fs : i.sumsFit s) (ft : i.sumsFit t) {x : Interval} (hx : evalInst i s = some x) :
    ∃ y, evalInst i t = some y ∧ below x y := by
  cases i with
  | binop op l r =>
    cases op
    case Add =>
      simp only [evalInst, Option.some.injEq] at hx
      refine ⟨_, rfl, ?_⟩
      rw [← hx]
      exact add_mono (intBounds_getInterval hs l) (intBounds_getInterval ht l)
        (intBounds_getInterval hs r) (intBounds_getInterval ht r)
        (getInterval_mono h l) (getInterval_mono h r) fs ft
    case Sub =>
      simp only [evalInst, Option.some.injEq] at hx
      refine ⟨_, rfl, ?_⟩
      rw [← hx]
      exact add_mono (intBounds_getInterval hs l) (intBounds_getInterval ht l)
        (intBounds_neg _) (intBounds_neg _) (getInterval_mono h l)
        (neg_mono (intBounds_getInterval hs r) (intBounds_getInterval ht r)
          (ordered_getInterval os r) (ordered_getInterval ot r) (getInterval_mono h r))
        fs ft
    all_goals exact evalInst_mono hs ht h (by rfl) hx
  | phi incoming => exact evalInst_mono hs ht h (by rfl) hx
  | select c tv fv => exact evalInst_mono hs ht h (by rfl) hx
  | icmp pred l r => exact evalInst_mono hs ht h (by rfl) hx
  | alloca n => exact evalInst_mono hs ht h (by rfl) hx
  | load q => exact evalInst_mono hs ht h (by rfl) hx
  | call args => exact evalInst_mono hs ht h (by rfl) hx
  | other ops => exact evalInst_mono hs ht h (by rfl) hx

theorem sumsFit_congr {s t : StateMap} (i : Inst)
    (h : ∀ v, Operand.val v ∈ i.operands → s v = t v) (hf : i.sumsFit s) :
    i.sumsFit t := by
  have hop : ∀ o ∈ i.operands, getInterval o s = getInterval o t := by
    intro o ho
    apply getInterval_congr
    intro v hv
    exact h v (hv ▸ ho)
  cases i with
  | binop op l r =>
    have e1 := hop l (by simp [Inst.operands])
    have e2 := hop r (by simp [Inst.operands])
    cases op <;> simp only [Inst.sumsFit] at hf ⊢
    · rw [← e1, ← e2]; exact hf
    · rw [← e1, ← e2]; exact hf
  | _ => trivial

theorem orderedState_initState (g : Graph) : OrderedState (initState g) := by
  intro n x h
  simp only [initState] at h
  split_ifs at h
  simp only [Option.some.injEq] at h
  rw [← h]; exact Or.inl rfl

theorem orderedState_set {s : StateMap} (ho : OrderedState s) (i : Nat) {x : Interval}
    (hx : Ordered x) : OrderedState (s.set i x) := by
  intro n y h
  simp only [StateMap.set] at h
  split_ifs at h
  · simp only [Option.some.injEq] at h; rw [← h]; exact hx
  · exact ho n y h

theorem stateBelow_trans {s t u : StateMap} (h1 : StateBelow s t) (h2 : StateBelow t u) :
    StateBelow s u := fun n => below_trans (h1 n) (h2 n)

/-- The value computed for an instruction is above its entry when the entry
is `empty()` or an earlier value of the instruction, and the sums fit. -/
theorem upward_step {g : Graph} {s : StateMap} (hs : StateInt s) (ho : OrderedState s)
    (htr : Traced g s) {i : Nat} {current : Interval}
    (hev : evalInst (g.inst i) s = some current) (hf : (g.inst i).sumsFit s) :
    below (s.lookup i) current := by
  rcases htr i (classified_of_evalInst hev) with he | ⟨t, ht, ot, hb, het, hft⟩
  · rw [he]; exact empty_below (intBounds_evalInst hs hev)
  · obtain ⟨y, hy, hxy⟩ := evalInst_mono_fits ht hs ot ho hb hft hf het
    rw [hev] at hy
    cases hy
    exact hxy

/-- Invariants of a run without overflow. -/
theorem traced_of_reach {g : Graph} (hno : NoOverflow g) {s : StateMap} {w : List Nat}
    (h : Reach g s w) : OrderedState s ∧ Traced g s := by
  induction h with
  | init =>
    refine ⟨orderedState_initState g, ?_⟩
    intro n hn
    left
    simp [StateMap.lookup, initState, hn]
  | same _ _ _ ih => exact ih
  | @change s i w current hr hev hne ih =>
    have hs := stateInt_of_reach hr
    have hf := hno s i w hr
    have hup := upward_step hs ih.1 ih.2 hev hf
    refine ⟨orderedState_set ih.1 i (ordered_evalInst hs ih.1 hf hev), ?_⟩
    intro n hn
    by_cases e : n = i
    · subst e
      right
      exact ⟨s, hs, ih.1, stateBelow_set hup, by rw [lookup_set_same]; exact hev, hf⟩
    · rw [lookup_set_other s current e]
      rcases ih.2 n hn with he | ⟨t, ht, ot, hb, het, hft⟩
      · exact Or.inl he
      · exact Or.inr ⟨t, ht, ot, stateBelow_trans hb (stateBelow_set hup), het, hft⟩

/-- In a run without overflow the values only move upward. -/
theorem upward_of_noOverflow {g : Graph} (hno : NoOverflow g) : Upward g := by
  intro s i w current hr hev
  have h := traced_of_reach hno hr
  exact upward_step (stateInt_of_reach hr) h.1 h.2 hev (hno s i w hr)

/-! ## Checking a run for overflow -/

theorem loopFits_step {g : Graph} {fuel : Nat} {s : StateMap} {i : Nat} {w : List Nat}
    (h : loopFits g fuel s (i :: w) = true) :
    ∃ f current, fuel = f + 1 ∧ evalInst (g.inst i) s = some current ∧
      (g.inst i).sumsFit s ∧
      (s.lookup i ≠ current →
        loopFits g f (s.set i current) (enqueueUsers g w (g.users i)) = true) ∧
      (s.lookup i = current → loopFits g f s w = true) := by
  cases fuel with
  | zero => simp [loopFits] at h
  | succ f =>
    cases hev : evalInst (g.inst i) s with
    | none => simp [loopFits, hev] at h
    | some current =>
      simp only [loopFits, hev, Bool.and_eq_true, decide_eq_true_eq] at h
      refine ⟨f, current, rfl, rfl, h.1, ?_, ?_⟩
      · intro hne
        simpa [hne] using h.2
      · intro he
        simpa [he] using h.2

theorem loopFits_of_reach {g : Graph} {s : StateMap} {w : List Nat} (hr : Reach g s w)
    (h : ∃ fuel, loopFits g fuel (initState g) (initWorklist g) = true) :
    ∃ fuel, loopFits g fuel s w = true := by
  induction hr with
  | init => exact h
  | same _ hev he ih =>
    obtain ⟨fuel, hf⟩ := ih
    obtain ⟨f, current, _, hev', _, _, h2⟩ := loopFits_step hf
    rw [hev] at hev'
    cases hev'
    exact ⟨f, h2 he⟩
  | change _ hev hne ih =>
    obtain ⟨fuel, hf⟩ := ih
    obtain ⟨f, current, _, hev', _, h1, _⟩ := loopFits_step hf
    rw [hev] at hev'
    cases hev'
    exact ⟨f, h1 hne⟩

/-- A run that passes the check computes no sum outside `int`. -/
theorem noOverflow_of_loopFits (g : Graph) (fuel : Nat)
    (h : loopFits g fuel (initState g) (initWorklist g) = true) : NoOverflow g := by
  intro s i w hr
  obtain ⟨f, hf⟩ := loopFits_of_reach hr ⟨fuel, h⟩
  obtain ⟨_, _, _, _, hfit, _, _⟩ := loopFits_step hf
  exact hfit

/-! ## Values move upward when no sum overflows -/

/-- C18 (amended): in every run in which each sum of two non-sentinel bounds
computed by `add` (for an `Add`, or inside `sub` for a `Sub`) is an `int`
value, whenever the worklist loop replaces the entry `old` of an instruction
by a new value `current`, `current` is above `old`:
`lower(current) <= lower(old)`, `upper(old) <= upper(current)` and
`lub(old, current) == current`. -/
theorem values_move_upward (g : Graph) (hno : NoOverflow g) (s : StateMap)
    (i : Nat) (w : List Nat) (current : Interval) (hr : Reach g s (i :: w))
    (hev : evalInst (g.inst i) s = some current) (_hne : s.lookup i ≠ current) :
    lower current ≤ lower (s.lookup i) ∧ upper (s.lookup i) ≤ upper current ∧
      lub (s.lookup i) current = current := by
  have hb := upward_of_noOverflow hno s i w current hr hev
  have hs := stateInt_of_reach hr
  exact ⟨hb.1, hb.2,
    lub_eq_right_of_below (intBounds_lookup hs i) (intBounds_evalInst hs hev) hb⟩

theorem reach_orderSmallState : Reach orderSmall orderSmallState [1, 2] :=
  have r1 := @Reach.change orderSmall _ 0 [1, 2, 3, 4] (0, 0) Reach.init (by decide)
    (by decide)
  have r2 := @Reach.change orderSmall _ 1 [2, 3, 4] (0, 0) r1 (by decide) (by decide)
  have r3 := @Reach.change orderSmall _ 2 [3, 4] (0, 0) r2 (by decide) (by decide)
  have r4 := @Reach.change orderSmall _ 3 [4] (0, 0) r3 (by decide) (by decide)
  have r5 := @Reach.change orderSmall _ 4 [3] (5, 5) r4 (by decide) (by decide)
  have r6 := @Reach.same orderSmall _ 3 [0] (0, 0) r5 (by decide) (by decide)
  @Reach.change orderSmall _ 0 [] (0, 5) r6 (by decide) (by decide)

theorem values_move_upward_witness :
    NoOverflow orderSmall ∧ Reach orderSmall orderSmallState (1 :: [2]) ∧
      evalInst (orderSmall.inst 1) orderSmallState = some (make 0 5) ∧
      orderSmallState.lookup 1 = make 0 0 ∧ orderSmallState.lookup 1 ≠ make 0 5 ∧
      lower (make 0 5) ≤ lower (orderSmallState.lookup 1) ∧
      upper (orderSmallState.lookup 1) ≤ upper (make 0 5) ∧
      lub (orderSmallState.lookup 1) (make 0 5) = make 0 5 :=
  ⟨noOverflow_of_loopFits orderSmall 11 (by decide), reach_orderSmallState, by decide,
    by decide, by decide,
    values_move_upward orderSmall (noOverflow_of_loopFits orderSmall 11 (by decide))
      orderSmallState 1 [2] (make 0 5) reach_orderSmallState (by decide) (by decide)⟩

/-! ## Order of enumeration when no sum overflows -/

theorem reach_of_loop {g : Graph} :
    ∀ (fuel : Nat) (s : StateMap) (w : List Nat) (final : StateMap),
      Reach g s w → loop g fuel s w = .done final → Reach g final [] := by
  intro fuel
  induction fuel with
  | zero =>
    intro s w final hr h
    cases w with
    | nil => rw [loop_nil] at h; cases h; exact hr
    | cons i w => cases h
  | succ fuel ih =>
    intro s w final hr h
    cases w with
    | nil => rw [loop_nil] at h; cases h; exact hr
    | cons i w =>
      cases hev : evalInst (g.inst i) s with
      | none => rw [loop_step_abort hev] at h; cases h
      | some current =>
        by_cases hne : s.lookup i = current
        · rw [loop_step_same hev hne] at h
          exact ih s w final (Reach.same hr hev hne) h
        · rw [loop_step_change hev hne] at h
          exact ih _ _ final (Reach.change hr hev hne) h

/-- With complete users and no overflow, every supported instruction outside
the worklist evaluates to its entry with sums that fit, up to the end. -/
theorem loop_stableFits {g : Graph} (hu : UsersComplete g) (hno : NoOverflow g) :
    ∀ (fuel : Nat) (s : StateMap) (w : List Nat) (final : StateMap),
      Reach g s w → StableFits g s w → loop g fuel s w = .done final →
        StableFits g final [] := by
  intro fuel
  induction fuel with
  | zero =>
    intro s w final _ hs h
    cases w with
    | nil => rw [loop_nil] at h; cases h; exact hs
    | cons i w => cases h
  | succ fuel ih =>
    intro s w final hr hs h
    cases w with
    | nil => rw [loop_nil] at h; cases h; exact hs
    | cons i w =>
      have hf := hno s i w hr
      cases hev : evalInst (g.inst i) s with
      | none => rw [loop_step_abort hev] at h; cases h
      | some current =>
        by_cases hne : s.lookup i = current
        · rw [loop_step_same hev hne] at h
          refine ih s w final (Reach.same hr hev hne) ?_ h
          intro n hn hw
          by_cases e : n = i
          · subst e; exact ⟨by rw [hev, hne], hf⟩
          · exact hs n hn (by simp [e, hw])
        · rw [loop_step_change hev hne] at h
          refine ih _ _ final (Reach.change hr hev hne) ?_ h
          intro n hn hw
          have hnu : n ∉ g.users i := fun hm => hw (mem_enqueueUsers_of_user g _ _ n hm hn)
          have hnw : n ∉ w := fun hm => hw (mem_enqueueUsers_of_mem g _ _ n hm)
          have hop : Operand.val i ∉ (g.inst n).operands := fun hm => hnu (hu n i hn hm)
          have hagree : ∀ v, Operand.val v ∈ (g.inst n).operands →
              s v = (s.set i current) v := by
            intro v hv
            have : v ≠ i := fun e => hop (e ▸ hv)
            simp only [StateMap.set, this, if_false]
          rw [evalInst_set_of_not_operand _ i current hop]
          by_cases e : n = i
          · subst e
            exact ⟨by rw [hev, lookup_set_same], sumsFit_congr _ hagree hf⟩
          · rw [lookup_set_other s current e]
            have h0 := hs n hn (by simp [e, hnw])
            exact ⟨h0.1, sumsFit_congr _ hagree h0.2⟩

/-- A run without overflow stays below every state in which all supported
instructions evaluate to their entries with sums that fit. -/
theorem loop_below_fixpoint_fits {g : Graph} (hno : NoOverflow g) {t : StateMap}
    (ht : StateInt t) (ot : OrderedState t)
    (hfix : ∀ n, g.classified n = true →
      evalInst (g.inst n) t = some (t.lookup n) ∧ (g.inst n).sumsFit t) :
    ∀ (fuel : Nat) (s : StateMap) (w : List Nat) (final : StateMap),
      Reach g s w → StateBelow s t → loop g fuel s w = .done final →
        StateBelow final t := by
  intro fuel
  induction fuel with
  | zero =>
    intro s w final _ hb h
    cases w with
    | nil => rw [loop_nil] at h; cases h; exact hb
    | cons i w => cases h
  | succ fuel ih =>
    intro s w final hr hb h
    cases w with
    | nil => rw [loop_nil] at h; cases h; exact hb
    | cons i w =>
      cases hev : evalInst (g.inst i) s with
      | none => rw [loop_step_abort hev] at h; cases h
      | some current =>
        by_cases hne : s.lookup i = current
        · rw [loop_step_same hev hne] at h
          exact ih s w final (Reach.same hr hev hne) hb h
        · rw [loop_step_change hev hne] at h
          refine ih _ _ final (Reach.change hr hev hne) ?_ h
          intro n
          by_cases e : n = i
          · subst e
            rw [lookup_set_same]
            have hc := classified_of_evalInst hev
            obtain ⟨y, hy, hxy⟩ := evalInst_mono_fits (stateInt_of_reach hr) ht
              (traced_of_reach hno hr).1 ot hb (hno s n w hr) (hfix n hc).2 hev
            rw [(hfix n hc).1] at hy
            cases hy
            exact hxy
          · rw [lookup_set_other s current e]
            exact hb n

/-- The final state of a run without overflow lies below the final state of
any run without overflow on the same instructions whose users are complete. -/
theorem final_below_final_fits {g1 g2 : Graph} (hi : g1.insts = g2.insts)
    (hu : UsersComplete g2) (hno1 : NoOverflow g1) (hno2 : NoOverflow g2)
    {fuel1 fuel2 : Nat} {s1 s2 : StateMap} (h1 : runOnFunction g1 fuel1 = .done s1)
    (h2 : runOnFunction g2 fuel2 = .done s2) : StateBelow s1 s2 := by
  have hr2 := reach_of_loop fuel2 (initState g2) (initWorklist g2) s2 Reach.init h2
  have hst := loop_stableFits hu hno2 fuel2 (initState g2) (initWorklist g2) s2 Reach.init
    (fun n hn hw => absurd (mem_initWorklist hn) hw) h2
  have hin := loop_stateInt_noStray fuel2 (initState g2) (initWorklist g2) s2
    (stateInt_initState g2) (noStray_initState g2) h2
  have hfix : ∀ n, g1.classified n = true →
      evalInst (g1.inst n) s2 = some (s2.lookup n) ∧ (g1.inst n).sumsFit s2 := by
    intro n hn
    rw [inst_eq_of_insts_eq hi]
    rw [classified_eq_of_insts_eq hi] at hn
    exact hst n hn (List.not_mem_nil n)
  refine loop_below_fixpoint_fits hno1 hin.1 (traced_of_reach hno2 hr2).1 hfix fuel1
    (initState g1) (initWorklist g1) s1 Reach.init ?_ h1
  intro n
  cases hc : g1.classified n with
  | true =>
    have : (initState g1).lookup n = empty := by simp [StateMap.lookup, initState, hc]
    rw [this]
    exact empty_below (intBounds_lookup hin.1 n)
  | false =>
    have e1 : (initState g1).lookup n = make 0 0 := by simp [StateMap.lookup, initState, hc]
    have e2 : s2.lookup n = make 0 0 := by
      rw [classified_eq_of_insts_eq hi] at hc
      simp [StateMap.lookup, hin.2 n hc]
    rw [e1, e2]
    exact below_refl _

/-- C3 (amended): two runs on the same instructions that differ only in the
order in which users are enumerated, whose users list every supported
instruction having the value as an operand, in neither of which a sum of two
non-sentinel bounds computed by `add` (for an `Add`, or inside `sub` for a
`Sub`) leaves the `int` range, and that both end without abort, end in the
same final state. -/
theorem order_independence_without_overflow (g1 g2 : Graph)
    (hi : g1.insts = g2.insts) (hp : ∀ n, List.Perm (g1.users n) (g2.users n))
    (hu : UsersComplete g1) (hno1 : NoOverflow g1) (hno2 : NoOverflow g2)
    (fuel1 fuel2 : Nat) (s1 s2 : StateMap) (h1 : runOnFunction g1 fuel1 = .done s1)
    (h2 : runOnFunction g2 fuel2 = .done s2) :
    ∀ n, s1 n = s2 n := by
  have hu2 : UsersComplete g2 := by
    intro m n hm hop
    rw [← classified_eq_of_insts_eq hi] at hm
    rw [← inst_eq_of_insts_eq hi] at hop
    exact (hp n).subset (hu m n hm hop)
  have b12 := final_below_final_fits hi hu2 hno1 hno2 h1 h2
  have b21 := final_below_final_fits hi.symm hu hno2 hno1 h2 h1
  have d1 := loop_defined fuel1 (initState g1) (initWorklist g1) s1 (defined_initState g1) h1
  have d2 := loop_defined fuel2 (initState g2) (initWorklist g2) s2 (defined_initState g2) h2
  have n1 := loop_stateInt_noStray fuel1 (initState g1) (initWorklist g1) s1
    (stateInt_initState g1) (noStray_initState g1) h1
  have n2 := loop_stateInt_noStray fuel2 (initState g2) (initWorklist g2) s2
    (stateInt_initState g2) (noStray_initState g2) h2
  intro n
  cases hc : g1.classified n with
  | true =>
    obtain ⟨x, hx⟩ := d1 n hc
    obtain ⟨y, hy⟩ := d2 n (by rw [← classified_eq_of_insts_eq hi]; exact hc)
    have e := below_antisymm (b12 n) (b21 n)
    simp only [StateMap.lookup, hx, hy, Option.getD_some] at e
    rw [hx, hy, e]
  | false =>
    rw [n1.2 n hc, n2.2 n (by rw [← classified_eq_of_insts_eq hi]; exact hc)]

theorem orderSmall_users_perm :
    ∀ n, List.Perm (orderSmall.users n) (orderSmallSwapped.users n) := by
  intro n
  by_cases h : n = 0
  · subst h; exact List.Perm.swap 2 1 []
  · simp only [orderSmall, orderSmallSwapped, orderExampleSwapped, h, if_false]
    exact List.Perm.refl _

theorem order_independence_without_overflow_witness :
    orderSmall.insts = orderSmallSwapped.insts ∧
    (∀ n, List.Perm (orderSmall.users n) (orderSmallSwapped.users n)) ∧
    UsersComplete orderSmall ∧ NoOverflow orderSmall ∧ NoOverflow orderSmallSwapped ∧
    runOnFunction orderSmall 11 = .done (runOnFunction orderSmall 11).state ∧
    runOnFunction orderSmallSwapped 13 = .done (runOnFunction orderSmallSwapped 13).state ∧
    (runOnFunction orderSmallSwapped 12).finished = false ∧
    (runOnFunction orderSmall 11).state 3 = some (make 0 10) ∧
    ∀ n, (runOnFunction orderSmall 11).state n = (runOnFunction orderSmallSwapped 13).state n :=
  ⟨rfl, orderSmall_users_perm, usersComplete_of_check (by decide),
    noOverflow_of_loopFits orderSmall 11 (by decide),
    noOverflow_of_loopFits orderSmallSwapped 13 (by decide),
    done_of_finished (by decide), done_of_finished (by decide), by decide, by decide,
    order_independence_without_overflow orderSmall orderSmallSwapped rfl
      orderSmall_users_perm (usersComplete_of_check (by decide))
      (noOverflow_of_loopFits orderSmall 11 (by decide))
      (noOverflow_of_loopFits orderSmallSwapped 13 (by decide)) 11 13 _ _
      (done_of_finished (by decide)) (done_of_finished (by decide))⟩

end rangeanalysis
